import Mathlib

set_option maxRecDepth 100000

/-!
Shallow embedding of the entity-resolution / post-processing pipeline of
`src/utils/s4_video_post_process.py`, together with proofs of the claims
about it.  Strings are modelled by Lean `String` (a wrapper around
`List Char`); the ASCII fragment of Python's `str.lower`, `str.strip` and
the regex class `\w` is embedded explicitly.
-/

/-- ASCII model of Python `str.lower` applied to one character. -/
def pyToLower (c : Char) : Char :=
  if 65 ≤ c.toNat ∧ c.toNat ≤ 90 then Char.ofNat (c.toNat + 32) else c

/-- Model of Python's `\s` class for `str.strip` (ASCII whitespace). -/
def isSpaceChar (c : Char) : Bool :=
  c = ' ' || c = '\t' || c = '\n' || c = '\r'

/-- Model of the regex class `\w`: alphanumeric or underscore (ASCII). -/
def isWordChar (c : Char) : Bool :=
  c.isAlphanum || c = '_'

/-- Python `str.strip`: drop leading and trailing whitespace. -/
def pyStrip (l : List Char) : List Char :=
  ((l.dropWhile isSpaceChar).reverse.dropWhile isSpaceChar).reverse

/-- `CharacterManager.normalize_name` on the character-list level:
`re.sub(r"[^\w]", "", name.lower().strip())`. -/
def normalizeChars (l : List Char) : List Char :=
  (pyStrip (l.map pyToLower)).filter isWordChar

/-- `CharacterManager.normalize_name`: lowercase, strip, remove every
non-word character. -/
def normalize_name (name : String) : String :=
  ⟨normalizeChars name.data⟩

/- ### fuzz.ratio (fuzzywuzzy / difflib SequenceMatcher model) -/

/-- Length of the longest common prefix of two character lists. -/
def commonLen : List Char → List Char → Nat
  | a :: as, b :: bs => if a = b then commonLen as bs + 1 else 0
  | _, _ => 0

/-- Leftmost longest matching block of two character lists, as in
difflib's `find_longest_match` (no junk heuristic): returns `(i, j, k)`
with `a.drop i` and `b.drop j` agreeing on their first `k` characters,
`k` maximal, ties broken towards the smallest `i` then `j`. -/
def bestMatch (a b : List Char) : Nat × Nat × Nat :=
  let cands := (List.range (a.length + 1)).flatMap fun i =>
    (List.range (b.length + 1)).map fun j =>
      (i, j, commonLen (a.drop i) (b.drop j))
  cands.foldl (fun best c => if best.2.2 < c.2.2 then c else best) (0, 0, 0)

/-- Total number of matching characters, summed over the recursive
matching-block decomposition of difflib's `get_matching_blocks`
(fuel-indexed; `a.length + b.length + 1` fuel always suffices). -/
def matchTotalF : Nat → List Char → List Char → Nat
  | 0, _, _ => 0
  | fuel + 1, a, b =>
    let m := bestMatch a b
    if m.2.2 = 0 then 0
    else
      matchTotalF fuel (a.take m.1) (b.take m.2.1) + m.2.2 +
        matchTotalF fuel (a.drop (m.1 + m.2.2)) (b.drop (m.2.1 + m.2.2))

/-- `fuzz.ratio`: `round(100 * 2*M/(la+lb))` as in
fuzzywuzzy's `utils.intr(100 * SequenceMatcher.ratio())`, with the
half-way case rounded up; two empty strings give 100 as in difflib. -/
def fuzz_ratio (a b : String) : Nat :=
  let la := a.data.length
  let lb := b.data.length
  if la + lb = 0 then 100
  else (400 * matchTotalF (la + lb + 1) a.data b.data + (la + lb)) / (2 * (la + lb))

/- ### Data model -/

/-- One entry of `self.characters["characters"]`. -/
structure Character where
  id : String
  canonical_name : String
  variations : List String
deriving DecidableEq, Repr

/-- One entry of `self.characters["appearances"]`. -/
structure Appearance where
  character_id : String
  video_name : String
deriving DecidableEq, Repr

/-- The state of a `CharacterManager`. -/
structure CharacterManager where
  characters : List Character
  appearances : List Appearance
deriving DecidableEq, Repr

/-- `CharacterManager.__init__`. -/
def initManager : CharacterManager :=
  { characters := [], appearances := [] }

/-- The exact-match test of `find_character_id`:
`normalized in char["variations"] and normalized == normalize_name(char["canonical_name"])`. -/
def exactMatch (normalized : String) (c : Character) : Bool :=
  c.variations.contains normalized && normalized == normalize_name c.canonical_name

/-- The fuzzy-match test of `find_character_id`: some string in
`variations + [canonical_name]` has `fuzz.ratio` with the normalized
input above 60 (threshold hardcoded in the source). -/
def fuzzyMatch (normalized : String) (c : Character) : Bool :=
  (c.variations ++ [c.canonical_name]).any fun v =>
    60 < fuzz_ratio normalized (normalize_name v)

/-- `CharacterManager.find_character_id`: exact pass over all characters
first, then fuzzy pass. -/
def find_character_id (m : CharacterManager) (name : String) : Option String :=
  let normalized := normalize_name name
  match m.characters.find? (exactMatch normalized) with
  | some c => some c.id
  | none => (m.characters.find? (fuzzyMatch normalized)).map (fun c => c.id)

/-- `f"{n:03d}"`: decimal representation left-padded with zeros to width 3. -/
def pad3 (n : Nat) : String :=
  ⟨List.replicate (3 - (Nat.repr n).length) '0' ++ (Nat.repr n).data⟩

/-- The error message raised when the id space is exhausted. -/
def capacityMsg : String := "Cannot create more than 999 character IDs"

/-- `CharacterManager.add_character`: return the id of an existing match
(`if char_id:` — a falsy empty-string id also falls through to creation),
otherwise append a fresh character; raising `ValueError` on more than 999
ids is modelled by `Except.error`. -/
def add_character (m : CharacterManager) (name : String) :
    Except String (String × CharacterManager) :=
  let create : Except String (String × CharacterManager) :=
    if m.characters.length + 1 > 999 then .error capacityMsg
    else
      let new_id := pad3 (m.characters.length + 1)
      .ok (new_id,
        { m with characters := m.characters ++
            [{ id := new_id, canonical_name := name,
               variations := [normalize_name name] }] })
  match find_character_id m name with
  | some cid => if cid = "" then create else .ok (cid, m)
  | none => create

/-- `CharacterManager.add_appearance`: resolve (or create) the character,
then append the `(character_id, video_name)` fact unless already present. -/
def add_appearance (m : CharacterManager) (character_name video_name : String) :
    Except String CharacterManager :=
  match add_character m character_name with
  | .error e => .error e
  | .ok (char_id, m1) =>
    if m1.appearances.any (fun app =>
        app.character_id == char_id && app.video_name == video_name) then
      .ok m1
    else
      .ok { m1 with appearances := m1.appearances ++
              [{ character_id := char_id, video_name := video_name }] }

/-- `CharacterManager.get_character_videos`. -/
def get_character_videos (m : CharacterManager) (char_id : String) : List String :=
  (m.appearances.filter fun app => app.character_id == char_id).map
    fun app => app.video_name

/- ### Flat character table (CHARACTERS.csv) -/

/-- `", ".join` on the character-list level. -/
def joinCSChars : List (List Char) → List Char
  | [] => []
  | [x] => x
  | x :: xs => x ++ [',', ' '] ++ joinCSChars xs

/-- Python `s.split(", ")` on the character-list level: split at every
leftmost, non-overlapping occurrence of the separator. -/
def splitCSChars : List Char → List (List Char)
  | [] => [[]]
  | [c] => [[c]]
  | c :: d :: rest =>
    if c = ',' ∧ d = ' ' then [] :: splitCSChars rest
    else
      match splitCSChars (d :: rest) with
      | [] => [[c]]
      | g :: gs => (c :: g) :: gs

/-- `", ".join(videos)`. -/
def joinCS (l : List String) : String :=
  ⟨joinCSChars (l.map String.data)⟩

/-- Reading back a `VIDEO` cell: an empty cell is a pandas `NaN`
(not a `str`), giving `[]`; otherwise `row["VIDEO"].split(", ")`. -/
def splitVideos (s : String) : List String :=
  if s = "" then [] else (splitCSChars s.data).map fun l => ⟨l⟩

/-- One row of the flat character table (columns ID, NAME, VIDEO). -/
structure Row where
  ID : String
  NAME : String
  VIDEO : String
deriving DecidableEq, Repr

/-- `CharacterManager.generate_table`: one row per character with the
normalized display name and the comma-space-joined video list. -/
def generate_table (m : CharacterManager) : List Row :=
  m.characters.map fun c =>
    { ID := c.id, NAME := normalize_name c.canonical_name,
      VIDEO := joinCS (get_character_videos m c.id) }

/-- `load_existing_characters`: seed the manager from the table — each
row becomes a character with `variations = [NAME]`, and one appearance
per entry of the split `VIDEO` cell. -/
def load_existing_characters (m : CharacterManager) (table : List Row) :
    CharacterManager :=
  { characters := m.characters ++ table.map fun row =>
      { id := row.ID, canonical_name := row.NAME, variations := [row.NAME] },
    appearances := m.appearances ++ table.flatMap fun row =>
      (splitVideos row.VIDEO).map fun v =>
        { character_id := row.ID, video_name := v } }

/- ### Scene aggregation (merge_final_json_files) -/

/-- A scene record of a final JSON document. -/
structure Scene where
  name : String
  original_entities : List String
deriving DecidableEq, Repr

/-- A final JSON document: `none` models a document that failed to load
or that has no well-formed `scenes` array; `some scenes` a good one. -/
abbrev FinalDoc := Option (List Scene)

/-- `os.path.basename`: the part after the last `/`. -/
def basename (s : String) : String :=
  ⟨((splitSlash s.data).getLast?).getD []⟩
where
  /-- split at every `/`. -/
  splitSlash : List Char → List (List Char)
    | [] => [[]]
    | '/' :: rest => [] :: splitSlash rest
    | c :: rest =>
      match splitSlash rest with
      | [] => [[c]]
      | g :: gs => (c :: g) :: gs

/-- Lexicographic (code-point) comparison of character lists, as Python
compares strings. -/
def lexLe : List Char → List Char → Bool
  | [], _ => true
  | _ :: _, [] => false
  | a :: as, b :: bs => if a = b then lexLe as bs else decide (a < b)

/-- `scene.get("name", "")` exists check against the video directory:
the scene survives iff its basename is among the files present. -/
def sceneOk (vids : List String) (sc : Scene) : Bool :=
  vids.contains (basename sc.name)

/-- The comparison used by `all_scenes.sort(key=lambda x: x.get("name", ""))`. -/
def sceneLe (a b : Scene) : Prop :=
  lexLe a.name.data b.name.data = true

instance : DecidableRel sceneLe := fun a b => by
  unfold sceneLe; infer_instance

/-- `merge_final_json_files`, pure core: keep the scenes of well-formed
documents whose referenced clip exists, then sort by clip name
(`List.insertionSort` models Python's stable ascending `list.sort`). -/
def merge_final_json_files (docs : List FinalDoc) (vids : List String) :
    List Scene :=
  List.insertionSort sceneLe
    ((docs.filterMap id).flatMap fun scenes => scenes.filter (sceneOk vids))

/- ### Pairing and materialization (rename_and_copy_videos) -/

/-- Key list of `video_to_chars` in dict insertion order: every video of
every row, first occurrences kept. -/
def dedupFirstAux (seen : List String) : List String → List String
  | [] => []
  | x :: xs =>
    if x ∈ seen then dedupFirstAux seen xs
    else x :: dedupFirstAux (x :: seen) xs

/-- The keys of the `video_to_chars` dictionary, in insertion order. -/
def videoKeys (rows : List Row) : List String :=
  dedupFirstAux [] (rows.flatMap fun r => splitVideos r.VIDEO)

/-- The value `video_to_chars[video]`: one copy of `row.ID` appended for
every occurrence of `video` in the row's `VIDEO` list, rows in order. -/
def charsFor (rows : List Row) (video : String) : List String :=
  rows.flatMap fun r =>
    ((splitVideos r.VIDEO).filter fun v => v == video).map fun _ => r.ID

/-- Python `int` on a decimal-digit string (the only ids the pipeline
produces); accumulator-style base-10 parse. -/
def parseNatChars : List Char → Nat → Nat
  | [], acc => acc
  | c :: rest, acc => parseNatChars rest (acc * 10 + (c.toNat - 48))

/-- `f"{int(id_str):03d}"`. -/
def formatId (s : String) : String :=
  pad3 (parseNatChars s.data 0)

/-- Destination filename for a two-character clip: zero-pad both ids,
sort the pair, join with `_` and append the hardcoded `.mp4`. -/
def pairFilename (a b : String) : String :=
  let fa := formatId a
  let fb := formatId b
  if lexLe fa.data fb.data then fa ++ "_" ++ fb ++ ".mp4"
  else fb ++ "_" ++ fa ++ ".mp4"

/-- The `renamed_videos` mapping: for every video (dict order) whose
character list has length exactly 2, the destination path under the
fusion directory. -/
def renamed_videos (rows : List Row) (fusionDir : String) :
    List (String × String) :=
  (videoKeys rows).filterMap fun video =>
    match charsFor rows video with
    | [a, b] => some (video, fusionDir ++ "/" ++ pairFilename a b)
    | _ => none

/-- The filesystem, modelled as an association list path → content. -/
abbrev FileSys := List (String × String)

/-- Lookup of a path. -/
def fsLookup (fs : FileSys) (p : String) : Option String :=
  (fs.find? fun e => e.1 == p).map fun e => e.2

/-- `copy_file_if_not_exists`: skip when the destination exists;
otherwise attempt the copy — a raising `shutil.copy2` (modelled as a
missing source) is caught and reported as `false`. -/
def copy_file_if_not_exists (fs : FileSys) (source destination : String) :
    Bool × FileSys :=
  if (fsLookup fs destination).isSome then (false, fs)
  else
    match fsLookup fs source with
    | some content => (true, (destination, content) :: fs)
    | none => (false, fs)

/-- Perform the copy of every mapping entry in order, counting the
copies actually performed. -/
def runCopies (fs : FileSys) : List (String × String) → FileSys × Nat
  | [] => (fs, 0)
  | e :: rest =>
    let r := copy_file_if_not_exists fs e.1 e.2
    let rec' := runCopies r.2 rest
    (rec'.1, rec'.2 + (if r.1 then 1 else 0))

/-- The effectful core of `rename_and_copy_videos`: the mapping is a
pure function of the table (every entry is recorded whether or not its
copy succeeds), and the copies are attempted in order. -/
def materialize (rows : List Row) (fusionDir : String) (fs : FileSys) :
    (List (String × String)) × FileSys × Nat :=
  let mapping := renamed_videos rows fusionDir
  let r := runCopies fs mapping
  (mapping, r.1, r.2)

/- ### Operation sequences on one registry -/

/-- A registry operation: `resolve_or_create` (= `add_character`) or
`record_appearance` (= `add_appearance`). -/
inductive RegOp where
  | resolve (name : String)
  | record (name : String) (video : String)
deriving DecidableEq, Repr

/-- Apply one operation. -/
def applyOp (m : CharacterManager) : RegOp → Except String CharacterManager
  | .resolve n => (add_character m n).map fun r => r.2
  | .record n v => add_appearance m n v

/-- Run a sequence of operations, stopping at the first error. -/
def execOps (m : CharacterManager) : List RegOp → Except String CharacterManager
  | [] => .ok m
  | op :: ops =>
    match applyOp m op with
    | .error e => .error e
    | .ok m1 => execOps m1 ops

example : normalize_name "Mr. Fox-Bear" = "mrfoxbear" := by decide
example : normalize_name "Wolf Bear" = "wolfbear" := by decide
example : fuzz_ratio "wolfbear" "wolfbear" = 100 := by decide
example : fuzz_ratio "zzzz" "c17" = 0 := by decide

/- ### Normalization lemmas -/

theorem toNat_ofNat_valid (n : Nat) (h : n.isValidChar) :
    (Char.ofNat n).toNat = n := by
  rw [Char.ofNat, dif_pos h]
  rfl

theorem pyToLower_idem (c : Char) : pyToLower (pyToLower c) = pyToLower c := by
  unfold pyToLower
  by_cases h : 65 ≤ c.toNat ∧ c.toNat ≤ 90
  · rw [if_pos h]
    have hv : (c.toNat + 32).isValidChar := Or.inl (by omega)
    have ht : (Char.ofNat (c.toNat + 32)).toNat = c.toNat + 32 :=
      toNat_ofNat_valid _ hv
    rw [if_neg (by omega)]
  · rw [if_neg h, if_neg h]

theorem word_not_space {c : Char} (h : isWordChar c = true) :
    isSpaceChar c = false := by
  simp only [isSpaceChar, Bool.or_eq_false_iff, decide_eq_false_iff_not]
  refine ⟨⟨⟨?_, ?_⟩, ?_⟩, ?_⟩ <;> intro e <;> subst e <;> exact absurd h (by decide)

theorem dropWhile_eq_self_of (p : Char → Bool) (l : List Char)
    (h : ∀ c ∈ l, p c = false) : l.dropWhile p = l := by
  cases l with
  | nil => rfl
  | cons a as => simp [List.dropWhile, h a (by simp)]

theorem pyStrip_eq_self {l : List Char}
    (h : ∀ c ∈ l, isSpaceChar c = false) : pyStrip l = l := by
  unfold pyStrip
  rw [dropWhile_eq_self_of _ _ h, dropWhile_eq_self_of _ _ (by simpa using h),
    List.reverse_reverse]

theorem mem_pyStrip {c : Char} {l : List Char} (h : c ∈ pyStrip l) : c ∈ l := by
  unfold pyStrip at h
  rw [List.mem_reverse] at h
  have h1 := (List.dropWhile_sublist _).mem h
  rw [List.mem_reverse] at h1
  exact (List.dropWhile_sublist _).mem h1

theorem mem_normalizeChars {c : Char} {l : List Char}
    (h : c ∈ normalizeChars l) : isWordChar c = true ∧ pyToLower c = c := by
  unfold normalizeChars at h
  have h1 := List.of_mem_filter h
  have h2 : c ∈ (l.map pyToLower) := mem_pyStrip (List.mem_of_mem_filter h)
  obtain ⟨a, _, rfl⟩ := List.mem_map.mp h2
  exact ⟨h1, pyToLower_idem a⟩

theorem normalizeChars_idem (l : List Char) :
    normalizeChars (normalizeChars l) = normalizeChars l := by
  have hw : ∀ c ∈ normalizeChars l, isWordChar c = true :=
    fun c hc => (mem_normalizeChars hc).1
  have hmap : (normalizeChars l).map pyToLower = normalizeChars l := by
    rw [List.map_congr_left (fun c hc => (mem_normalizeChars hc).2), List.map_id']
  conv_lhs => rw [normalizeChars, hmap,
    pyStrip_eq_self (fun c hc => word_not_space (hw c hc)),
    List.filter_eq_self.mpr hw]

theorem normalize_name_idem (s : String) :
    normalize_name (normalize_name s) = normalize_name s :=
  congrArg String.mk (normalizeChars_idem s.data)

/- ### pad3 lemmas -/

theorem repr_len_bounds : ∀ n, n < 1000 →
    1 ≤ (Nat.repr n).length ∧ (Nat.repr n).length ≤ 3 := by decide

theorem pad3_length {n : Nat} (h : n < 1000) : (pad3 n).length = 3 := by
  obtain ⟨h1, h2⟩ := repr_len_bounds n h
  show (List.replicate (3 - (Nat.repr n).length) '0' ++ (Nat.repr n).data).length = 3
  rw [List.length_append, List.length_replicate]
  have : (Nat.repr n).data.length = (Nat.repr n).length := rfl
  omega

theorem pad3_ne_empty {n : Nat} (h : n < 1000) : pad3 n ≠ "" := by
  intro he
  have : (pad3 n).length = 0 := by rw [he]; rfl
  rw [pad3_length h] at this
  exact absurd this (by decide)

/- ### add_character behavior -/

/-- The manager obtained by appending the freshly created character for
`name`. -/
def withNewChar (m : CharacterManager) (name : String) : CharacterManager :=
  { m with characters := m.characters ++
      [{ id := pad3 (m.characters.length + 1), canonical_name := name,
         variations := [normalize_name name] }] }

theorem find_character_id_eq (m : CharacterManager) (name : String) :
    find_character_id m name =
      match m.characters.find? (exactMatch (normalize_name name)) with
      | some c => some c.id
      | none =>
        (m.characters.find? (fuzzyMatch (normalize_name name))).map
          fun c => c.id := rfl

theorem find_character_id_congr {m : CharacterManager} {n1 n2 : String}
    (h : normalize_name n1 = normalize_name n2) :
    find_character_id m n1 = find_character_id m n2 := by
  rw [find_character_id_eq, find_character_id_eq, h]

theorem find_character_id_mem {m : CharacterManager} {name cid : String}
    (h : find_character_id m name = some cid) :
    ∃ c ∈ m.characters, c.id = cid := by
  rw [find_character_id_eq] at h
  cases he : m.characters.find? (exactMatch (normalize_name name)) with
  | some c =>
    rw [he] at h
    exact ⟨c, List.mem_of_find?_eq_some he, Option.some.inj h⟩
  | none =>
    rw [he] at h
    cases hf : m.characters.find? (fuzzyMatch (normalize_name name)) with
    | some c =>
      rw [hf] at h
      exact ⟨c, List.mem_of_find?_eq_some hf, Option.some.inj h⟩
    | none => rw [hf] at h; exact absurd h (by simp)

theorem find_character_id_exact_none {m : CharacterManager} {name : String}
    (h : find_character_id m name = none) :
    ∀ c ∈ m.characters, exactMatch (normalize_name name) c = false := by
  intro c hc
  rw [find_character_id_eq] at h
  cases he : m.characters.find? (exactMatch (normalize_name name)) with
  | some c0 => rw [he] at h; exact absurd h (by simp)
  | none => simpa using List.find?_eq_none.mp he c hc

theorem add_character_found {m : CharacterManager} {name cid : String}
    (h : find_character_id m name = some cid) (hne : cid ≠ "") :
    add_character m name = .ok (cid, m) := by
  unfold add_character
  rw [h]
  simp [hne]

theorem add_character_notfound {m : CharacterManager} {name : String}
    (h : find_character_id m name = none)
    (hlen : m.characters.length + 1 ≤ 999) :
    add_character m name =
      .ok (pad3 (m.characters.length + 1), withNewChar m name) := by
  unfold add_character
  rw [h]
  simp only [withNewChar]
  rw [if_neg (by omega)]

theorem add_character_cap {m : CharacterManager} {name : String}
    (h : find_character_id m name = none)
    (hlen : 999 < m.characters.length + 1) :
    add_character m name = .error capacityMsg := by
  unfold add_character
  rw [h, if_pos hlen]

theorem find?_append_none {α : Type} {p : α → Bool} {l1 l2 : List α}
    (h : l1.find? p = none) : (l1 ++ l2).find? p = l2.find? p := by
  induction l1 with
  | nil => rfl
  | cons a as ih =>
    have hall := List.find?_eq_none.mp h
    have ha : ¬ (p a = true) := hall a (by simp)
    rw [List.cons_append, List.find?_cons_of_neg _ ha]
    exact ih (List.find?_eq_none.mpr fun x hx => hall x (by simp [hx]))

/-- After `withNewChar m n1`, any name with the same normalized form as
`n1` resolves exactly to the new character, provided no earlier exact
match existed. -/
theorem find_withNewChar {m : CharacterManager} {n1 n2 : String}
    (hf : find_character_id m n1 = none)
    (hnorm : normalize_name n1 = normalize_name n2) :
    find_character_id (withNewChar m n1) n2 =
      some (pad3 (m.characters.length + 1)) := by
  have hex := find_character_id_exact_none hf
  have h1 : (withNewChar m n1).characters.find? (exactMatch (normalize_name n2))
      = some { id := pad3 (m.characters.length + 1), canonical_name := n1,
               variations := [normalize_name n1] } := by
    show (m.characters ++ [_]).find? _ = _
    rw [find?_append_none (List.find?_eq_none.mpr (by
      intro c hc
      rw [← hnorm]
      simp [hex c hc]))]
    rw [List.find?_cons_of_pos _ (by
      simp [exactMatch, ← hnorm, normalize_name_idem])]
  rw [find_character_id_eq, h1]

theorem add_character_norm_eq {m m1 : CharacterManager} {n1 n2 id1 : String}
    (hne : ∀ c ∈ m.characters, c.id ≠ "")
    (hnorm : normalize_name n1 = normalize_name n2)
    (h : add_character m n1 = .ok (id1, m1)) :
    add_character m1 n2 = .ok (id1, m1) := by
  cases hf : find_character_id m n1 with
  | some cid =>
    obtain ⟨c, hc, hcid⟩ := find_character_id_mem hf
    have hcne : cid ≠ "" := hcid ▸ hne c hc
    rw [add_character_found hf hcne] at h
    injection h with h'
    injection h' with ha hb
    subst ha
    subst hb
    exact add_character_found
      (((find_character_id_congr hnorm).symm.trans hf)) hcne
  | none =>
    have hlen : m.characters.length + 1 ≤ 999 := by
      by_contra hgt
      rw [add_character_cap hf (by omega)] at h
      exact absurd h (by simp)
    rw [add_character_notfound hf hlen] at h
    injection h with h'
    injection h' with ha hb
    subst ha
    subst hb
    exact add_character_found (find_withNewChar hf hnorm)
      (pad3_ne_empty (by omega))

/- ### Claim C9 -/

/-- C9: name normalization (lowercase, trim, strip every non-word
character) is idempotent, and the specific inputs "Mr. Fox-Bear" and
"mr foxbear" normalize to the identical string. -/
theorem C9_normalize_idempotent :
    (∀ x : String, normalize_name (normalize_name x) = normalize_name x) ∧
    normalize_name "Mr. Fox-Bear" = normalize_name "mr foxbear" :=
  ⟨normalize_name_idem, by decide⟩

/-- The registry after resolving "Fox" on a fresh manager. -/
def mFox : CharacterManager :=
  { characters := [{ id := "001", canonical_name := "Fox",
                     variations := ["fox"] }],
    appearances := [] }

/-- The registry reached by recording Fox and Bear on clip a.mp4 and
then re-resolving "fox". -/
def mFoxBear : CharacterManager :=
  { characters := [{ id := "001", canonical_name := "Fox", variations := ["fox"] }, { id := "002", canonical_name := "Bear", variations := ["bear"] }],
    appearances := [{ character_id := "001", video_name := "a.mp4" }, { character_id := "002", video_name := "a.mp4" }] }

/- ### Claim C3 -/

/-- C3: on a registry already holding 999 characters, resolving a raw name
that matches no existing character (exactly or fuzzily) fails with the
capacity error, and no resulting state exists — no partial character is
committed (the caller's registry value is untouched). -/
theorem C3_capacity_error (m : CharacterManager) (name : String)
    (hlen : m.characters.length = 999)
    (hfind : find_character_id m name = none) :
    add_character m name = .error capacityMsg ∧
    ∀ r, add_character m name ≠ .ok r := by
  have he : add_character m name = .error capacityMsg :=
    add_character_cap hfind (by omega)
  exact ⟨he, fun r hr => by rw [he] at hr; exact absurd hr (by simp)⟩

/-- A registry holding 999 characters, none of which matches "zzzz". -/
def cap999 : CharacterManager :=
  { characters := List.replicate 999
      { id := "001", canonical_name := "Fox", variations := ["fox"] },
    appearances := [] }

theorem cap999_find : find_character_id cap999 "zzzz" = none := by
  rw [find_character_id_eq]
  have he : cap999.characters.find? (exactMatch (normalize_name "zzzz")) = none :=
    List.find?_eq_none.mpr fun x hx => by
      rw [List.eq_of_mem_replicate hx]; decide
  have hf : cap999.characters.find? (fuzzyMatch (normalize_name "zzzz")) = none :=
    List.find?_eq_none.mpr fun x hx => by
      rw [List.eq_of_mem_replicate hx]; decide
  rw [he, hf]
  rfl

theorem C3_witness :
    cap999.characters.length = 999 ∧
    add_character cap999 "zzzz" = .error capacityMsg :=
  ⟨by simp [cap999],
   (C3_capacity_error cap999 "zzzz" (by simp [cap999]) cap999_find).1⟩

/- ### Claim C2 -/

/-- Is the cell a non-empty run of decimal digits?  This is the fragment
of pandas' numeric-column inference that the pipeline's own tables
exercise: every ID `generate_table` writes is a zero-padded digit
string. -/
def isDigitsStr (s : String) : Bool :=
  !s.data.isEmpty && s.data.all fun c => c.isDigit

/-- The value an all-digit cell comes back as after the CSV round trip:
`pd.read_csv` parses it as int64, dropping the zero padding; the loaded
integer `k` is represented here by its unpadded decimal string, which —
like `1 ≠ "001"` in Python — is a different value from the padded
string that was written. -/
def intCell (s : String) : String :=
  Nat.repr (parseNatChars s.data 0)

/-- Modelled from `pd.read_csv` in `load_existing_characters`: a column
whose every cell is an all-digit string is parsed as int64, so each
saved id `"00k"` is loaded back as the integer `k` (see the
`"1" becomes "001"` re-padding comment in `rename_and_copy_videos`).
The NAME and VIDEO columns of pipeline tables contain non-numeric text
and stay strings. -/
def pandasReadTable (table : List Row) : List Row :=
  if table.all (fun r => isDigitsStr r.ID) then
    table.map fun r => { r with ID := intCell r.ID }
  else table

/-- `update_character_database`'s reload of the manager's own saved
table: a fresh manager seeded from `generate_table`'s rows as
`pd.read_csv` returns them. -/
def reload (m : CharacterManager) : CharacterManager :=
  load_existing_characters initManager (pandasReadTable (generate_table m))

/-- What one character becomes after the save/reload round trip: the id
coerced through int64, the canonical name normalized, the variations
reset to that singleton. -/
def reloadChar (c : Character) : Character :=
  { id := intCell c.id, canonical_name := normalize_name c.canonical_name,
    variations := [normalize_name c.canonical_name] }

theorem reload_characters (m : CharacterManager)
    (hd : ∀ c ∈ m.characters, isDigitsStr c.id = true) :
    (reload m).characters = m.characters.map reloadChar := by
  unfold reload pandasReadTable
  rw [if_pos (by
    rw [List.all_eq_true]
    intro r hr
    obtain ⟨c, hc, rfl⟩ := List.mem_map.mp hr
    exact hd c hc)]
  show [] ++ ((m.characters.map _).map _).map _ = _
  rw [List.nil_append, List.map_map, List.map_map]
  rfl

/-- The invariant every pipeline-built registry satisfies: each
character's variations list is the singleton of its normalized
canonical name. -/
def GoodVariations (m : CharacterManager) : Prop :=
  ∀ c ∈ m.characters, c.variations = [normalize_name c.canonical_name]

theorem exactMatch_reloadChar {nrm : String} {c : Character}
    (hc : c.variations = [normalize_name c.canonical_name]) :
    exactMatch nrm (reloadChar c) = exactMatch nrm c := by
  simp [exactMatch, reloadChar, hc, normalize_name_idem]

theorem fuzzyMatch_reloadChar {nrm : String} {c : Character}
    (hc : c.variations = [normalize_name c.canonical_name]) :
    fuzzyMatch nrm (reloadChar c) = fuzzyMatch nrm c := by
  simp [fuzzyMatch, reloadChar, hc, normalize_name_idem]

theorem find?_map_congr {α β : Type} (F : α → β) (p : β → Bool) (q : α → Bool) :
    ∀ l : List α, (∀ c ∈ l, p (F c) = q c) →
      (l.map F).find? p = (l.find? q).map F := by
  intro l
  induction l with
  | nil => intro _; rfl
  | cons a as ih =>
    intro h
    rw [List.map_cons]
    cases hq : q a with
    | true =>
      rw [List.find?_cons_of_pos _ (by rw [h a (by simp), hq]),
        List.find?_cons_of_pos _ hq]
      rfl
    | false =>
      rw [List.find?_cons_of_neg _ (by simp [h a (by simp), hq]),
        List.find?_cons_of_neg _ (by simp [hq])]
      exact ih fun c hc => h c (by simp [hc])

theorem find_character_id_reload (m : CharacterManager)
    (hg : GoodVariations m)
    (hd : ∀ c ∈ m.characters, isDigitsStr c.id = true) (n : String) :
    find_character_id (reload m) n =
      (find_character_id m n).map intCell := by
  rw [find_character_id_eq, find_character_id_eq, reload_characters m hd]
  rw [find?_map_congr reloadChar (exactMatch (normalize_name n))
    (exactMatch (normalize_name n)) m.characters
    (fun c hc => exactMatch_reloadChar (hg c hc))]
  rw [find?_map_congr reloadChar (fuzzyMatch (normalize_name n))
    (fuzzyMatch (normalize_name n)) m.characters
    (fun c hc => fuzzyMatch_reloadChar (hg c hc))]
  cases he : m.characters.find? (exactMatch (normalize_name n)) with
  | some c => simp [reloadChar]
  | none =>
    cases hf : m.characters.find? (fuzzyMatch (normalize_name n)) with
    | some c => simp [reloadChar]
    | none => simp

/-- C2 counterexample: after saving the registry holding only
Fox = "001" and reloading its table, the character id is the loaded
integer 1 (unpadded), not the saved string "001", and "Fox" now
resolves to that different value — ids and resolution results are not
unchanged by the round trip. -/
theorem C2_counterexample :
    mFox.characters.map (fun c => c.id) = ["001"] ∧
    (reload mFox).characters.map (fun c => c.id) = ["1"] ∧
    find_character_id mFox "Fox" = some "001" ∧
    find_character_id (reload mFox) "Fox" = some "1" ∧
    ("1" : String) ≠ "001" := by
  refine ⟨rfl, rfl, rfl, rfl, by decide⟩

/-- C2 amended: saving the registry to the flat one-row-per-character
table and reloading it into a fresh run preserves every character id
only up to its numeric value: `pd.read_csv` parses the all-digit ID
column as int64, so the saved zero-padded id `"00k"` is loaded back as
the integer `k` (re-padded only when pairing filenames are computed),
and every raw name resolves after the reload to the loaded integer form
of exactly the id it resolved to before the save — same character, same
position, numerically equal id. Hypotheses: the saved registry has the
variations invariant of every pipeline-built registry, and its ids are
digit strings (true of the dense `001..999` ids the pipeline assigns). -/
theorem C2_save_reload_numeric (m : CharacterManager)
    (hg : GoodVariations m)
    (hd : ∀ c ∈ m.characters, isDigitsStr c.id = true) :
    (reload m).characters.map (fun c => c.id) =
      m.characters.map (fun c => intCell c.id) ∧
    (∀ n : String, find_character_id (reload m) n =
      (find_character_id m n).map intCell) ∧
    (∀ k, 1 ≤ k → k ≤ 999 → intCell (pad3 k) = Nat.repr k) := by
  refine ⟨?_, find_character_id_reload m hg hd, ?_⟩
  · rw [reload_characters m hd, List.map_map]
    rfl
  · decide

theorem C2_witness :
    ((reload mFox).characters.map (fun c => c.id) =
      mFox.characters.map (fun c => intCell c.id) ∧
    (∀ n : String, find_character_id (reload mFox) n =
      (find_character_id mFox n).map intCell) ∧
    (∀ k, 1 ≤ k → k ≤ 999 → intCell (pad3 k) = Nat.repr k)) :=
  C2_save_reload_numeric mFox
    (by
      intro c hc
      simp only [mFox, List.mem_singleton] at hc
      rw [hc]; rfl)
    (by
      intro c hc
      simp only [mFox, List.mem_singleton] at hc
      rw [hc]; rfl)

/- ### Case analysis of add_character / add_appearance -/

theorem add_character_found_falsy {m : CharacterManager} {name : String}
    (hf : find_character_id m name = some "")
    (hlen : m.characters.length + 1 ≤ 999) :
    add_character m name =
      .ok (pad3 (m.characters.length + 1), withNewChar m name) := by
  have hgt : ¬ (m.characters.length + 1 > 999) := by omega
  unfold add_character
  rw [hf]
  simp [hgt, withNewChar]

theorem add_character_cap_falsy {m : CharacterManager} {name : String}
    (hf : find_character_id m name = some "")
    (hlen : 999 < m.characters.length + 1) :
    add_character m name = .error capacityMsg := by
  unfold add_character
  rw [hf]
  simp [hlen]

theorem add_character_cases {m : CharacterManager} {name id1 : String}
    {m1 : CharacterManager} (h : add_character m name = .ok (id1, m1)) :
    (m1 = m ∧ find_character_id m name = some id1 ∧ id1 ≠ "") ∨
    (m.characters.length + 1 ≤ 999 ∧ id1 = pad3 (m.characters.length + 1) ∧
      m1 = withNewChar m name ∧
      (find_character_id m name = none ∨
        find_character_id m name = some "")) := by
  cases hf : find_character_id m name with
  | some cid =>
    by_cases hc : cid = ""
    · subst hc
      by_cases hlen : m.characters.length + 1 ≤ 999
      · rw [add_character_found_falsy hf hlen] at h
        injection h with h'
        exact Or.inr ⟨hlen, (congrArg Prod.fst h').symm,
          (congrArg Prod.snd h').symm, Or.inr rfl⟩
      · rw [add_character_cap_falsy hf (by omega)] at h
        exact absurd h (by simp)
    · rw [add_character_found hf hc] at h
      injection h with h'
      have hcid : cid = id1 := congrArg Prod.fst h'
      exact Or.inl ⟨(congrArg Prod.snd h').symm, hcid ▸ rfl, hcid ▸ hc⟩
  | none =>
    by_cases hlen : m.characters.length + 1 ≤ 999
    · rw [add_character_notfound hf hlen] at h
      injection h with h'
      exact Or.inr ⟨hlen, (congrArg Prod.fst h').symm,
        (congrArg Prod.snd h').symm, Or.inl rfl⟩
    · rw [add_character_cap hf (by omega)] at h
      exact absurd h (by simp)

theorem add_character_self {m : CharacterManager} {n cid : String}
    (h : add_character m n = .ok (cid, m)) :
    find_character_id m n = some cid ∧ cid ≠ "" := by
  rcases add_character_cases h with ⟨_, hf, hne⟩ | ⟨_, _, heq, _⟩
  · exact ⟨hf, hne⟩
  · have := congrArg (fun mm => mm.characters.length) heq
    simp [withNewChar] at this

/-- The appearance-duplicate test of `add_appearance`. -/
def appPresent (mm : CharacterManager) (cid v : String) : Bool :=
  mm.appearances.any fun app =>
    app.character_id == cid && app.video_name == v

theorem add_appearance_err {m : CharacterManager} {n v e : String}
    (ha : add_character m n = .error e) :
    add_appearance m n v = .error e := by
  unfold add_appearance
  rw [ha]

theorem add_appearance_present {m mm : CharacterManager} {n v cid : String}
    (ha : add_character m n = .ok (cid, mm))
    (hp : appPresent mm cid v = true) :
    add_appearance m n v = .ok mm := by
  unfold add_appearance
  rw [ha]
  simp only [appPresent] at hp
  simp [hp]

theorem add_appearance_absent {m mm : CharacterManager} {n v cid : String}
    (ha : add_character m n = .ok (cid, mm))
    (hp : appPresent mm cid v = false) :
    add_appearance m n v = .ok { mm with appearances := mm.appearances ++
      [{ character_id := cid, video_name := v }] } := by
  unfold add_appearance
  rw [ha]
  simp only [appPresent] at hp
  simp [hp]

theorem add_appearance_cases {m m1 : CharacterManager} {n v : String}
    (h : add_appearance m n v = .ok m1) :
    ∃ cid mm, add_character m n = .ok (cid, mm) ∧
      ((appPresent mm cid v = true ∧ m1 = mm) ∨
       (appPresent mm cid v = false ∧
        m1 = { mm with appearances := mm.appearances ++
          [{ character_id := cid, video_name := v }] })) := by
  cases ha : add_character m n with
  | error e => rw [add_appearance_err ha] at h; exact absurd h (by simp)
  | ok r =>
    obtain ⟨cid, mm⟩ := r
    cases hp : appPresent mm cid v with
    | true =>
      rw [add_appearance_present ha hp] at h
      injection h with h'
      exact ⟨cid, mm, rfl, Or.inl ⟨hp, h'.symm⟩⟩
    | false =>
      rw [add_appearance_absent ha hp] at h
      injection h with h'
      exact ⟨cid, mm, rfl, Or.inr ⟨hp, h'.symm⟩⟩

/- ### The registry invariant -/

/-- Invariant of every registry reachable from a fresh manager: at most
999 characters; ids dense `001, 002, ...` in first-seen order; each
character's variations is the singleton of its normalized canonical
name; normalized canonical names pairwise distinct; appearance pairs
unique; and every appearance's id belongs to a character. -/
def RegInv (m : CharacterManager) : Prop :=
  m.characters.length ≤ 999 ∧
  (m.characters.map fun c => c.id) =
    ((List.range m.characters.length).map fun i => pad3 (i + 1)) ∧
  GoodVariations m ∧
  (m.characters.map fun c => normalize_name c.canonical_name).Nodup ∧
  m.appearances.Nodup ∧
  (∀ a ∈ m.appearances, a.character_id ∈ m.characters.map fun c => c.id)

theorem RegInv_init : RegInv initManager :=
  ⟨by decide, by decide, fun c hc => absurd hc (by simp [initManager]),
   by simp [initManager], by simp [initManager],
   fun a ha => absurd ha (by simp [initManager])⟩

theorem mem_ids_of_dense {m : CharacterManager} (hm : RegInv m) :
    ∀ c ∈ m.characters, ∃ i, i < m.characters.length ∧ c.id = pad3 (i + 1) := by
  intro c hc
  have hmem : c.id ∈ m.characters.map fun c => c.id :=
    List.mem_map_of_mem _ hc
  rw [hm.2.1] at hmem
  obtain ⟨i, hir, hieq⟩ := List.mem_map.mp hmem
  exact ⟨i, List.mem_range.mp hir, hieq.symm⟩

theorem RegInv_ids_ne {m : CharacterManager} (hm : RegInv m) :
    ∀ c ∈ m.characters, c.id ≠ "" := by
  intro c hc
  obtain ⟨i, hi, hid⟩ := mem_ids_of_dense hm c hc
  have hl := hm.1
  rw [hid]
  exact pad3_ne_empty (by omega)

theorem exactMatch_good {nrm : String} {c : Character}
    (hc : c.variations = [normalize_name c.canonical_name])
    (h : exactMatch nrm c = false) :
    nrm ≠ normalize_name c.canonical_name := by
  intro he
  have ht : exactMatch nrm c = true := by
    simp [exactMatch, hc, he]
  rw [h] at ht
  exact absurd ht (by simp)

theorem add_character_inv {m : CharacterManager} {name id1 : String}
    {m1 : CharacterManager} (hm : RegInv m)
    (h : add_character m name = .ok (id1, m1)) : RegInv m1 := by
  rcases add_character_cases h with ⟨rfl, _, _⟩ | ⟨hlen, hid, rfl, hfind⟩
  · exact hm
  · obtain ⟨hl, hdense, hvar, hnodupN, hnodupA, hcov⟩ := hm
    have hfnone : find_character_id m name = none := by
      rcases hfind with hf | hf
      · exact hf
      · obtain ⟨c, hcmem, hcid⟩ := find_character_id_mem hf
        exact absurd hcid
          (RegInv_ids_ne ⟨hl, hdense, hvar, hnodupN, hnodupA, hcov⟩ c hcmem)
    have hexact := find_character_id_exact_none hfnone
    refine ⟨?_, ?_, ?_, ?_, ?_, ?_⟩
    · simp only [withNewChar, List.length_append, List.length_singleton]
      omega
    · simp only [withNewChar, List.map_append, List.length_append,
        List.length_singleton, List.range_succ, hdense]
      rfl
    · intro c hc
      simp only [withNewChar, List.mem_append, List.mem_singleton] at hc
      rcases hc with hc | hc
      · exact hvar c hc
      · rw [hc]
    · simp only [withNewChar, List.map_append]
      rw [List.nodup_append]
      refine ⟨hnodupN, by simp, ?_⟩
      intro x hx
      simp only [List.map_cons, List.map_nil, List.mem_singleton]
      intro hx2
      obtain ⟨c, hcmem, hceq⟩ := List.mem_map.mp hx
      rw [hx2] at hceq
      exact exactMatch_good (hvar c hcmem) (hexact c hcmem) hceq.symm
    · exact hnodupA
    · intro a ha
      simp only [withNewChar, List.map_append, List.mem_append]
      exact Or.inl (hcov a ha)

theorem add_appearance_inv {m m1 : CharacterManager} {n v : String}
    (hm : RegInv m) (h : add_appearance m n v = .ok m1) : RegInv m1 := by
  obtain ⟨cid, mm, ha, hcase⟩ := add_appearance_cases h
  have hmm : RegInv mm := add_character_inv hm ha
  have hcid : cid ∈ mm.characters.map fun c => c.id := by
    rcases add_character_cases ha with ⟨rfl, hf, _⟩ | ⟨_, hid, rfl, _⟩
    · obtain ⟨c, hcm, hcideq⟩ := find_character_id_mem hf
      exact List.mem_map.mpr ⟨c, hcm, hcideq⟩
    · rw [hid]
      simp [withNewChar]
  rcases hcase with ⟨_, rfl⟩ | ⟨hp, rfl⟩
  · exact hmm
  · obtain ⟨hl, hdense, hvar, hnodupN, hnodupA, hcov⟩ := hmm
    refine ⟨hl, hdense, hvar, hnodupN, ?_, ?_⟩
    · rw [List.nodup_append]
      refine ⟨hnodupA, by simp, ?_⟩
      intro a hamem
      simp only [List.mem_singleton]
      intro haeq
      have hpt : appPresent mm cid v = true :=
        List.any_eq_true.mpr ⟨a, hamem, by rw [haeq]; simp⟩
      rw [hp] at hpt
      exact absurd hpt (by simp)
    · intro a ha2
      simp only [List.mem_append, List.mem_singleton] at ha2
      rcases ha2 with ha2 | ha2
      · exact hcov a ha2
      · rw [ha2]
        exact hcid

/- ### Execution of operation sequences -/

theorem applyOp_inv {m m1 : CharacterManager} {op : RegOp} (hm : RegInv m)
    (h : applyOp m op = .ok m1) : RegInv m1 := by
  cases op with
  | resolve n =>
    simp only [applyOp] at h
    cases ha : add_character m n with
    | error e => rw [ha] at h; exact absurd h (by simp [Except.map])
    | ok r =>
      obtain ⟨cid, mm⟩ := r
      rw [ha] at h
      simp only [Except.map] at h
      injection h with h'
      exact h' ▸ add_character_inv hm ha
  | record n v => exact add_appearance_inv hm h

theorem add_character_chars {m : CharacterManager} {name id1 : String}
    {m1 : CharacterManager} (h : add_character m name = .ok (id1, m1)) :
    ∃ t, m1.characters = m.characters ++ t ∧
      ∀ c ∈ t, c.variations = [normalize_name c.canonical_name] := by
  rcases add_character_cases h with ⟨rfl, _, _⟩ | ⟨_, _, rfl, _⟩
  · exact ⟨[], by simp, by simp⟩
  · refine ⟨[{ id := pad3 (m.characters.length + 1), canonical_name := name, variations := [normalize_name name] }], rfl, ?_⟩
    intro c hc
    rw [List.mem_singleton] at hc
    rw [hc]

theorem applyOp_frame {m m1 : CharacterManager} {op : RegOp}
    (h : applyOp m op = .ok m1) :
    ∃ t, m1.characters = m.characters ++ t ∧
      ∀ c ∈ t, c.variations = [normalize_name c.canonical_name] := by
  cases op with
  | resolve n =>
    simp only [applyOp] at h
    cases ha : add_character m n with
    | error e => rw [ha] at h; exact absurd h (by simp [Except.map])
    | ok r =>
      obtain ⟨cid, mm⟩ := r
      rw [ha] at h
      simp only [Except.map] at h
      injection h with h'
      exact h' ▸ add_character_chars ha
  | record n v =>
    obtain ⟨cid, mm, ha, hcase⟩ := add_appearance_cases h
    obtain ⟨t, ht, hv⟩ := add_character_chars ha
    have : m1.characters = mm.characters := by
      rcases hcase with ⟨_, rfl⟩ | ⟨_, rfl⟩ <;> rfl
    exact ⟨t, this ▸ ht, hv⟩

theorem execOps_inv : ∀ (ops : List RegOp) (m m1 : CharacterManager),
    RegInv m → execOps m ops = .ok m1 → RegInv m1 := by
  intro ops
  induction ops with
  | nil =>
    intro m m1 hm h
    injection h with h'
    exact h' ▸ hm
  | cons op ops ih =>
    intro m m1 hm h
    unfold execOps at h
    cases ha : applyOp m op with
    | error e => rw [ha] at h; exact absurd h (by simp)
    | ok mm =>
      rw [ha] at h
      exact ih mm m1 (applyOp_inv hm ha) h

theorem execOps_frame : ∀ (ops : List RegOp) (m m1 : CharacterManager),
    execOps m ops = .ok m1 →
    ∃ t, m1.characters = m.characters ++ t ∧
      ∀ c ∈ t, c.variations = [normalize_name c.canonical_name] := by
  intro ops
  induction ops with
  | nil =>
    intro m m1 h
    injection h with h'
    exact ⟨[], by rw [h']; simp, by simp⟩
  | cons op ops ih =>
    intro m m1 h
    unfold execOps at h
    cases ha : applyOp m op with
    | error e => rw [ha] at h; exact absurd h (by simp)
    | ok mm =>
      rw [ha] at h
      obtain ⟨t1, ht1, hv1⟩ := applyOp_frame ha
      obtain ⟨t2, ht2, hv2⟩ := ih mm m1 h
      refine ⟨t1 ++ t2, ?_, ?_⟩
      · rw [ht2, ht1, List.append_assoc]
      · intro c hc
        rcases List.mem_append.mp hc with hc | hc
        · exact hv1 c hc
        · exact hv2 c hc

/- ### Idempotence of record_appearance -/

theorem find_character_id_chars_congr {m m' : CharacterManager} {n : String}
    (hc : m'.characters = m.characters) :
    find_character_id m' n = find_character_id m n := by
  rw [find_character_id_eq, find_character_id_eq, hc]

theorem add_appearance_idem {m m1 : CharacterManager} {n v : String}
    (hne : ∀ c ∈ m.characters, c.id ≠ "")
    (h : add_appearance m n v = .ok m1) :
    add_appearance m1 n v = .ok m1 := by
  obtain ⟨cid, mm, ha, hcase⟩ := add_appearance_cases h
  have ha2 : add_character mm n = .ok (cid, mm) := add_character_norm_eq hne rfl ha
  obtain ⟨hfind, hcne⟩ := add_character_self ha2
  have hchars : m1.characters = mm.characters := by
    rcases hcase with ⟨_, rfl⟩ | ⟨_, rfl⟩ <;> rfl
  have hfind1 : find_character_id m1 n = some cid := by
    rw [find_character_id_chars_congr hchars]
    exact hfind
  have ha3 : add_character m1 n = .ok (cid, m1) := add_character_found hfind1 hcne
  have hp1 : appPresent m1 cid v = true := by
    rcases hcase with ⟨hp, rfl⟩ | ⟨hp, rfl⟩
    · exact hp
    · simp [appPresent]
  exact add_appearance_present ha3 hp1

/- ### Claim C10 -/

/-- C10: a character's variations list is never extended: characters
loaded from the table keep exactly the singleton of their stored name,
every character created during a run carries exactly the singleton of
its normalized first raw name, and every operation sequence only appends
new characters (existing variations are untouched) — so a later spelling
that merely fuzzy-matches a character is never recorded among its
variations. -/
theorem C10_variations_frozen (table : List Row) (ops : List RegOp)
    (m1 : CharacterManager)
    (h : execOps (load_existing_characters initManager table) ops = .ok m1) :
    ∃ t, m1.characters =
        (load_existing_characters initManager table).characters ++ t ∧
      (∀ c ∈ t, c.variations = [normalize_name c.canonical_name]) ∧
      (∀ c ∈ (load_existing_characters initManager table).characters,
        c.variations = [c.canonical_name]) := by
  obtain ⟨t, ht, hv⟩ := execOps_frame ops _ m1 h
  refine ⟨t, ht, hv, ?_⟩
  intro c hc
  simp only [load_existing_characters, initManager, List.nil_append,
    List.mem_map] at hc
  obtain ⟨row, _, hrow⟩ := hc
  rw [← hrow]

/-- The table row used in the C10 witness. -/
def rowFox : Row := { ID := "001", NAME := "fox", VIDEO := "a.mp4" }

/-- The registry reached from the loaded table after resolving "Bear". -/
def execLoadedBear : CharacterManager :=
  { characters := [{ id := "001", canonical_name := "fox", variations := ["fox"] }, { id := "002", canonical_name := "Bear", variations := ["bear"] }],
    appearances := [{ character_id := "001", video_name := "a.mp4" }] }

theorem C10_witness :
    ∃ t, (execLoadedBear).characters =
        (load_existing_characters initManager [rowFox]).characters ++ t ∧
      (∀ c ∈ t, c.variations = [normalize_name c.canonical_name]) ∧
      (∀ c ∈ (load_existing_characters initManager [rowFox]).characters,
        c.variations = [c.canonical_name]) :=
  C10_variations_frozen [rowFox] [.resolve "Bear"] execLoadedBear (by rfl)


/- ### Lexicographic string order lemmas -/

theorem lexLe_total : ∀ a b : List Char, lexLe a b = true ∨ lexLe b a = true := by
  intro a
  induction a with
  | nil => intro b; exact Or.inl rfl
  | cons x xs ih =>
    intro b
    cases b with
    | nil => exact Or.inr rfl
    | cons y ys =>
      by_cases hxy : x = y
      · subst hxy
        unfold lexLe
        rw [if_pos rfl, if_pos rfl]
        exact ih ys
      · unfold lexLe
        rw [if_neg hxy, if_neg (Ne.symm hxy)]
        rcases lt_trichotomy x y with hlt | heq | hgt
        · exact Or.inl (by simp [hlt])
        · exact absurd heq hxy
        · exact Or.inr (by simp [hgt])

theorem lexLe_trans : ∀ a b c : List Char, lexLe a b = true →
    lexLe b c = true → lexLe a c = true := by
  intro a
  induction a with
  | nil => intro b c _ _; rfl
  | cons x xs ih =>
    intro b c h1 h2
    cases b with
    | nil => exact absurd h1 (by simp [lexLe])
    | cons y ys =>
      cases c with
      | nil => exact absurd h2 (by simp [lexLe])
      | cons z zs =>
        unfold lexLe at h1 h2 ⊢
        by_cases hxy : x = y
        · subst hxy
          rw [if_pos rfl] at h1
          by_cases hyz : x = z
          · subst hyz
            rw [if_pos rfl] at h2
            rw [if_pos rfl]
            exact ih ys zs h1 h2
          · rw [if_neg hyz] at h2
            rw [if_neg hyz]
            exact h2
        · rw [if_neg hxy] at h1
          have hxylt : x < y := by simpa using h1
          by_cases hyz : y = z
          · subst hyz
            rw [if_neg hxy]
            simpa using hxylt
          · rw [if_neg hyz] at h2
            have hyzlt : y < z := by simpa using h2
            have hxz : x < z := lt_trans hxylt hyzlt
            rw [if_neg (ne_of_lt hxz)]
            simpa using hxz

instance : IsTotal Scene sceneLe :=
  ⟨fun a b => lexLe_total a.name.data b.name.data⟩

instance : IsTrans Scene sceneLe :=
  ⟨fun a b c h1 h2 => lexLe_trans a.name.data b.name.data c.name.data h1 h2⟩

/- ### Claim C7 -/

/-- C7: aggregation returns exactly the scene records of well-formed
documents whose referenced clip basename exists in the video directory;
documents that failed to parse or lack a scenes array contribute nothing
(and do not abort); the result is sorted ascending (lexicographically)
by clip name. -/
theorem C7_merge_filters_and_sorts (docs : List FinalDoc) (vids : List String) :
    (∀ sc : Scene, sc ∈ merge_final_json_files docs vids ↔
       ∃ scenes, (some scenes) ∈ docs ∧ sc ∈ scenes ∧
         vids.contains (basename sc.name) = true) ∧
    List.Sorted sceneLe (merge_final_json_files docs vids) ∧
    (∀ docs2 : List FinalDoc,
       merge_final_json_files (none :: docs2) vids =
         merge_final_json_files docs2 vids) := by
  refine ⟨?_, ?_, ?_⟩
  · intro sc
    unfold merge_final_json_files
    rw [List.Perm.mem_iff (List.perm_insertionSort _ _)]
    simp only [List.mem_flatMap, List.mem_filterMap, List.mem_filter, id_eq,
      sceneOk]
    constructor
    · rintro ⟨scenes, ⟨d, hd, hde⟩, hmem, hok⟩
      exact ⟨scenes, hde ▸ hd, hmem, hok⟩
    · rintro ⟨scenes, hd, hmem, hok⟩
      exact ⟨scenes, ⟨some scenes, hd, rfl⟩, hmem, hok⟩
  · exact List.sorted_insertionSort _ _
  · intro docs2
    rfl

/- ### Claim C5 -/

/-- C5 counterexample: the claim promises destination
`{lowId}_{highId}{sourceExtension}`, but for a source clip `clip.avi`
the code produces `001_002.mp4` — the extension is hardcoded `.mp4`,
not taken from the source file. -/
theorem C5_counterexample :
    renamed_videos [{ ID := "001", NAME := "a", VIDEO := "clip.avi" }, { ID := "002", NAME := "b", VIDEO := "clip.avi" }] "d" = [("clip.avi", "d/001_002.mp4")] ∧
    ("d/001_002.mp4" : String) ≠ "d/001_002.avi" := by
  constructor
  · rfl
  · decide

/-- The three decimal digit characters of `f"{n:03d}"` for `n < 1000`. -/
def digit3 (n : Nat) : List Char :=
  [Char.ofNat (48 + n / 100), Char.ofNat (48 + n / 10 % 10),
   Char.ofNat (48 + n % 10)]

theorem pad3_digits : ∀ n, n < 1000 → (pad3 n).data = digit3 n := by decide

theorem digitChar_lt : ∀ d, d < 10 → ∀ e, e < 10 →
    ((Char.ofNat (48 + d) < Char.ofNat (48 + e)) ↔ d < e) := by decide

theorem digitChar_eq : ∀ d, d < 10 → ∀ e, e < 10 →
    ((Char.ofNat (48 + d) = Char.ofNat (48 + e)) ↔ d = e) := by decide

/-- Lexicographic comparison of two zero-padded 3-digit strings agrees
with numeric comparison. -/
theorem pad3_lex_numeric (x y : Nat) (hx : x < 1000) (hy : y < 1000) :
    (lexLe (pad3 x).data (pad3 y).data = true) ↔ x ≤ y := by
  have hx2 : x / 100 < 10 := by omega
  have hx1 : x / 10 % 10 < 10 := by omega
  have hx0 : x % 10 < 10 := by omega
  have hy2 : y / 100 < 10 := by omega
  have hy1 : y / 10 % 10 < 10 := by omega
  have hy0 : y % 10 < 10 := by omega
  rw [pad3_digits x hx, pad3_digits y hy]
  simp only [digit3, lexLe]
  split_ifs with h2 h1 h0
  · have e2 := (digitChar_eq _ hx2 _ hy2).mp h2
    have e1 := (digitChar_eq _ hx1 _ hy1).mp h1
    have e0 := (digitChar_eq _ hx0 _ hy0).mp h0
    simp only [true_iff]
    omega
  · rw [decide_eq_true_iff, digitChar_lt _ hx0 _ hy0]
    have e2 := (digitChar_eq _ hx2 _ hy2).mp h2
    have e1 := (digitChar_eq _ hx1 _ hy1).mp h1
    have ne0 : x % 10 ≠ y % 10 := fun he => h0 ((digitChar_eq _ hx0 _ hy0).mpr he)
    omega
  · rw [decide_eq_true_iff, digitChar_lt _ hx1 _ hy1]
    have e2 := (digitChar_eq _ hx2 _ hy2).mp h2
    have ne1 : x / 10 % 10 ≠ y / 10 % 10 :=
      fun he => h1 ((digitChar_eq _ hx1 _ hy1).mpr he)
    omega
  · rw [decide_eq_true_iff, digitChar_lt _ hx2 _ hy2]
    have ne2 : x / 100 ≠ y / 100 :=
      fun he => h2 ((digitChar_eq _ hx2 _ hy2).mpr he)
    omega

/-- C5 amended: for every clip selected for pairing (exactly two
character ids), the destination is `{lowId}_{highId}.mp4` under the
fusion directory — ids zero-padded to 3 digits, the pair sorted
lexicographically (equal to numeric order at fixed width, as the last
conjunct states), and the extension hardcoded to `.mp4` regardless of
the source extension. -/
theorem C5_pair_filename (rows : List Row) (dir video a b : String)
    (hk : video ∈ videoKeys rows)
    (hc : charsFor rows video = [a, b]) :
    (∃ lo hi,
      ((lo = formatId a ∧ hi = formatId b) ∨
       (lo = formatId b ∧ hi = formatId a)) ∧
      lexLe lo.data hi.data = true ∧
      (video, dir ++ "/" ++ (lo ++ "_" ++ hi ++ ".mp4")) ∈
        renamed_videos rows dir) ∧
    (∀ x y : Nat, x < 1000 → y < 1000 →
      ((lexLe (pad3 x).data (pad3 y).data = true) ↔ x ≤ y)) := by
  have hmem : (video, dir ++ "/" ++ pairFilename a b) ∈ renamed_videos rows dir := by
    unfold renamed_videos
    apply List.mem_filterMap.mpr
    refine ⟨video, hk, ?_⟩
    rw [hc]
  refine ⟨?_, fun x y hx hy => pad3_lex_numeric x y hx hy⟩
  by_cases hle : lexLe (formatId a).data (formatId b).data = true
  · refine ⟨formatId a, formatId b, Or.inl ⟨rfl, rfl⟩, hle, ?_⟩
    have hpf : pairFilename a b = formatId a ++ "_" ++ formatId b ++ ".mp4" := by
      unfold pairFilename
      rw [if_pos hle]
    rw [hpf] at hmem
    exact hmem
  · have hle2 : lexLe (formatId b).data (formatId a).data = true := by
      rcases lexLe_total (formatId a).data (formatId b).data with h | h
      · exact absurd h hle
      · exact h
    refine ⟨formatId b, formatId a, Or.inr ⟨rfl, rfl⟩, hle2, ?_⟩
    have hpf : pairFilename a b = formatId b ++ "_" ++ formatId a ++ ".mp4" := by
      unfold pairFilename
      rw [if_neg (by simp [hle])]
    rw [hpf] at hmem
    exact hmem

/-- Concrete table for the C5 witness: clip x.mp4 carries ids 001, 002. -/
def rowsC5 : List Row := [{ ID := "001", NAME := "a", VIDEO := "x.mp4" }, { ID := "002", NAME := "b", VIDEO := "x.mp4" }]

theorem C5_witness :
    (∃ lo hi,
      ((lo = formatId "001" ∧ hi = formatId "002") ∨
       (lo = formatId "002" ∧ hi = formatId "001")) ∧
      lexLe lo.data hi.data = true ∧
      ("x.mp4", "d" ++ "/" ++ (lo ++ "_" ++ hi ++ ".mp4")) ∈
        renamed_videos rowsC5 "d") ∧
    (∀ x y : Nat, x < 1000 → y < 1000 →
      ((lexLe (pad3 x).data (pad3 y).data = true) ↔ x ≤ y)) :=
  C5_pair_filename rowsC5 "d" "x.mp4" "001" "002" (by decide) (by rfl)

/- ### Claim C6: filesystem lemmas -/

theorem copy_skip {fs : FileSys} {src dst : String}
    (h : (fsLookup fs dst).isSome = true) :
    copy_file_if_not_exists fs src dst = (false, fs) := by
  unfold copy_file_if_not_exists
  rw [if_pos h]

theorem copy_do {fs : FileSys} {src dst c : String}
    (hd : fsLookup fs dst = none) (hs : fsLookup fs src = some c) :
    copy_file_if_not_exists fs src dst = (true, (dst, c) :: fs) := by
  unfold copy_file_if_not_exists
  rw [if_neg (by simp [hd]), hs]

theorem copy_fail {fs : FileSys} {src dst : String}
    (hd : fsLookup fs dst = none) (hs : fsLookup fs src = none) :
    copy_file_if_not_exists fs src dst = (false, fs) := by
  unfold copy_file_if_not_exists
  rw [if_neg (by simp [hd]), hs]

theorem fsLookup_cons_ne {fs : FileSys} {dst c p : String} (h : dst ≠ p) :
    fsLookup ((dst, c) :: fs) p = fsLookup fs p := by
  unfold fsLookup
  rw [List.find?_cons_of_neg _ (by simp [h])]

theorem fsLookup_cons_self {fs : FileSys} {dst c : String} :
    fsLookup ((dst, c) :: fs) dst = some c := by
  unfold fsLookup
  rw [List.find?_cons_of_pos _ (by simp)]
  rfl

theorem copy_preserves {fs : FileSys} {src dst p c : String}
    (h : fsLookup fs p = some c) :
    fsLookup (copy_file_if_not_exists fs src dst).2 p = some c := by
  by_cases hd : (fsLookup fs dst).isSome
  · rw [copy_skip hd]; exact h
  · cases hs : fsLookup fs src with
    | none => rw [copy_fail (by simpa using hd) hs]; exact h
    | some cc =>
      rw [copy_do (by simpa using hd) hs]
      have hne : dst ≠ p := by
        intro he
        rw [he, h] at hd
        exact hd (by simp)
      show fsLookup ((dst, cc) :: fs) p = some c
      rw [fsLookup_cons_ne hne]
      exact h

theorem runCopies_fst (fs : FileSys) (src dst : String)
    (rest : List (String × String)) :
    runCopies fs ((src, dst) :: rest) =
      ((runCopies (copy_file_if_not_exists fs src dst).2 rest).1,
       (runCopies (copy_file_if_not_exists fs src dst).2 rest).2 +
         (if (copy_file_if_not_exists fs src dst).1 then 1 else 0)) := rfl

theorem runCopies_keep : ∀ (l : List (String × String)) (fs : FileSys)
    (p c : String), fsLookup fs p = some c →
    fsLookup (runCopies fs l).1 p = some c := by
  intro l
  induction l with
  | nil => intro fs p c h; exact h
  | cons e rest ih =>
    intro fs p c h
    obtain ⟨src, dst⟩ := e
    rw [runCopies_fst]
    exact ih _ p c (copy_preserves h)

theorem runCopies_mono {l : List (String × String)} {fs : FileSys} {p : String}
    (h : (fsLookup fs p).isSome) : (fsLookup (runCopies fs l).1 p).isSome := by
  obtain ⟨c, hc⟩ := Option.isSome_iff_exists.mp h
  rw [runCopies_keep l fs p c hc]
  simp

theorem runCopies_nondest : ∀ (l : List (String × String)) (fs : FileSys)
    (p : String), (∀ e ∈ l, e.2 ≠ p) →
    fsLookup (runCopies fs l).1 p = fsLookup fs p := by
  intro l
  induction l with
  | nil => intro fs p _; rfl
  | cons e rest ih =>
    intro fs p hp
    obtain ⟨src, dst⟩ := e
    rw [runCopies_fst]
    have hrest : ∀ e2 ∈ rest, e2.2 ≠ p := fun e2 he2 => hp e2 (by simp [he2])
    rw [ih _ p hrest]
    by_cases hd : (fsLookup fs dst).isSome
    · rw [copy_skip hd]
    · cases hs : fsLookup fs src with
      | none => rw [copy_fail (by simpa using hd) hs]
      | some cc =>
        rw [copy_do (by simpa using hd) hs]
        exact fsLookup_cons_ne (hp (src, dst) (by simp))

/-- Every entry whose source is present has its destination present. -/
def CopyDone (fs : FileSys) (l : List (String × String)) : Prop :=
  ∀ e ∈ l, (fsLookup fs e.1).isSome → (fsLookup fs e.2).isSome

theorem runCopies_done : ∀ (l : List (String × String)),
    (∀ e ∈ l, ∀ e2 ∈ l, e.1 ≠ e2.2) →
    ∀ fs : FileSys, CopyDone (runCopies fs l).1 l := by
  intro l
  induction l with
  | nil => intro _ fs e he; cases he
  | cons a rest ih =>
    intro hdisj fs
    obtain ⟨src, dst⟩ := a
    have hdrest : ∀ e ∈ rest, ∀ e2 ∈ rest, e.1 ≠ e2.2 :=
      fun e he e2 he2 => hdisj e (by simp [he]) e2 (by simp [he2])
    intro e he hsrc
    rw [runCopies_fst] at hsrc ⊢
    rcases List.mem_cons.mp he with rfl | hetail
    · -- e is the head entry (src, dst)
      have hsrcnd : ∀ e2 ∈ rest, e2.2 ≠ src := fun e2 he2 =>
        (hdisj (src, dst) (by simp) e2 (by simp [he2])).symm
      rw [runCopies_nondest rest _ src hsrcnd] at hsrc
      by_cases hd : (fsLookup fs dst).isSome
      · rw [copy_skip hd] at hsrc ⊢
        exact runCopies_mono hd
      · have hsrcne : src ≠ dst := hdisj (src, dst) (by simp) (src, dst) (by simp)
        cases hs : fsLookup fs src with
        | none =>
          rw [copy_fail (by simpa using hd) hs] at hsrc
          rw [hs] at hsrc
          exact absurd hsrc (by simp)
        | some cc =>
          rw [copy_do (by simpa using hd) hs]
          exact runCopies_mono (by rw [fsLookup_cons_self]; simp)
    · exact ih hdrest _ e hetail hsrc

theorem runCopies_of_done : ∀ (l : List (String × String)) (fs : FileSys),
    CopyDone fs l → runCopies fs l = (fs, 0) := by
  intro l
  induction l with
  | nil => intro fs _; rfl
  | cons a rest ih =>
    intro fs hdone
    obtain ⟨src, dst⟩ := a
    have hstep : copy_file_if_not_exists fs src dst = (false, fs) := by
      by_cases hd : (fsLookup fs dst).isSome
      · exact copy_skip hd
      · cases hs : fsLookup fs src with
        | none => exact copy_fail (by simpa using hd) hs
        | some c =>
          exact absurd (hdone (src, dst) (by simp) (by simp [hs])) hd
    rw [runCopies_fst, hstep]
    rw [ih fs (fun e he => hdone e (by simp [he]))]
    rfl

/-- C6: materialization is idempotent. The mapping is recorded for every
pairing clip independently of copy success (copy failure is non-fatal);
a destination that already exists is never copied over (its content is
preserved); and rerunning materialize on unchanged inputs yields the
identical mapping, an unchanged filesystem and zero additional copies.
Hypothesis: no source clip path coincides with a destination path
(sources live outside the fusion directory). -/
theorem C6_materialize_idempotent (rows : List Row) (dir : String)
    (fs : FileSys)
    (hdisj : ∀ e ∈ renamed_videos rows dir, ∀ e2 ∈ renamed_videos rows dir,
       e.1 ≠ e2.2) :
    (materialize rows dir fs).1 = renamed_videos rows dir ∧
    (∀ fs2 : FileSys, ∀ s d : String, (fsLookup fs2 d).isSome →
       copy_file_if_not_exists fs2 s d = (false, fs2)) ∧
    (∀ p c, fsLookup fs p = some c →
       fsLookup (materialize rows dir fs).2.1 p = some c) ∧
    (materialize rows dir (materialize rows dir fs).2.1).1 =
      (materialize rows dir fs).1 ∧
    (materialize rows dir (materialize rows dir fs).2.1).2.1 =
      (materialize rows dir fs).2.1 ∧
    (materialize rows dir (materialize rows dir fs).2.1).2.2 = 0 := by
  have hdone : CopyDone (runCopies fs (renamed_videos rows dir)).1
      (renamed_videos rows dir) := runCopies_done _ hdisj fs
  have hsecond := runCopies_of_done _ _ hdone
  refine ⟨rfl, ?_, ?_, rfl, ?_, ?_⟩
  · intro fs2 s d h
    exact copy_skip h
  · intro p c h
    exact runCopies_keep _ fs p c h
  · show (runCopies (runCopies fs (renamed_videos rows dir)).1
      (renamed_videos rows dir)).1 = _
    rw [hsecond]
    rfl
  · show (runCopies (runCopies fs (renamed_videos rows dir)).1
      (renamed_videos rows dir)).2 = 0
    rw [hsecond]

theorem C6_witness :
    ((materialize rowsC5 "d" [("x.mp4", "data")]).1 =
       renamed_videos rowsC5 "d" ∧
     (∀ fs2 : FileSys, ∀ s d : String, (fsLookup fs2 d).isSome →
        copy_file_if_not_exists fs2 s d = (false, fs2)) ∧
     (∀ p c, fsLookup [("x.mp4", "data")] p = some c →
        fsLookup (materialize rowsC5 "d" [("x.mp4", "data")]).2.1 p = some c) ∧
     (materialize rowsC5 "d"
        (materialize rowsC5 "d" [("x.mp4", "data")]).2.1).1 =
       (materialize rowsC5 "d" [("x.mp4", "data")]).1 ∧
     (materialize rowsC5 "d"
        (materialize rowsC5 "d" [("x.mp4", "data")]).2.1).2.1 =
       (materialize rowsC5 "d" [("x.mp4", "data")]).2.1 ∧
     (materialize rowsC5 "d"
        (materialize rowsC5 "d" [("x.mp4", "data")]).2.1).2.2 = 0) :=
  C6_materialize_idempotent rowsC5 "d" [("x.mp4", "data")] (by decide)

/- ### Claim C4: join/split round trip -/

/-- Does the character list contain the separator `", "`? -/
def hasSep : List Char → Bool
  | [] => false
  | [_] => false
  | c :: d :: rest => (c = ',' && d = ' ') || hasSep (d :: rest)

theorem splitCSChars_sepfree : ∀ x : List Char, hasSep x = false →
    splitCSChars x = [x] := by
  intro x
  induction x with
  | nil => intro _; rfl
  | cons c cs ih =>
    intro h
    cases cs with
    | nil => rfl
    | cons d cs2 =>
      simp only [hasSep, Bool.or_eq_false_iff, Bool.and_eq_false_iff] at h
      have hsep : ¬ (c = ',' ∧ d = ' ') := by
        rcases h.1 with h1 | h1 <;> intro hc <;>
          [exact absurd (decide_eq_true hc.1) (by simp [h1]);
           exact absurd (decide_eq_true hc.2) (by simp [h1])]
      show splitCSChars (c :: d :: cs2) = _
      rw [splitCSChars, if_neg hsep]
      rw [ih (by simpa [hasSep] using h.2)]

theorem splitCSChars_boundary : ∀ (x r : List Char), hasSep x = false →
    splitCSChars (x ++ ',' :: ' ' :: r) = x :: splitCSChars r := by
  intro x
  induction x with
  | nil =>
    intro r _
    show splitCSChars (',' :: ' ' :: r) = [] :: splitCSChars r
    rw [splitCSChars, if_pos ⟨rfl, rfl⟩]
  | cons c cs ih =>
    intro r h
    cases cs with
    | nil =>
      show splitCSChars (c :: ',' :: ' ' :: r) = [c] :: splitCSChars r
      rw [splitCSChars, if_neg (by intro hc; exact absurd hc.2 (by decide))]
      rw [show splitCSChars (',' :: ' ' :: r) = [] :: splitCSChars r from by
        rw [splitCSChars, if_pos ⟨rfl, rfl⟩]]
    | cons d cs2 =>
      simp only [hasSep, Bool.or_eq_false_iff, Bool.and_eq_false_iff] at h
      have hsep : ¬ (c = ',' ∧ d = ' ') := by
        rcases h.1 with h1 | h1 <;> intro hc <;>
          [exact absurd (decide_eq_true hc.1) (by simp [h1]);
           exact absurd (decide_eq_true hc.2) (by simp [h1])]
      show splitCSChars (c :: d :: (cs2 ++ ',' :: ' ' :: r)) = _
      rw [splitCSChars, if_neg hsep]
      rw [show (d :: (cs2 ++ ',' :: ' ' :: r)) = ((d :: cs2) ++ ',' :: ' ' :: r)
        from rfl]
      rw [ih r (by simpa [hasSep] using h.2)]

theorem joinsplit : ∀ ds : List (List Char), ds ≠ [] →
    (∀ x ∈ ds, x ≠ [] ∧ hasSep x = false) →
    splitCSChars (joinCSChars ds) = ds := by
  intro ds
  induction ds with
  | nil => intro h _; exact absurd rfl h
  | cons x rest ih =>
    intro _ h
    cases rest with
    | nil =>
      show splitCSChars (joinCSChars [x]) = [x]
      exact splitCSChars_sepfree x (h x (by simp)).2
    | cons y rest2 =>
      show splitCSChars (x ++ [',', ' '] ++ joinCSChars (y :: rest2)) = _
      rw [List.append_assoc]
      rw [show ([',', ' '] ++ joinCSChars (y :: rest2)) =
        ',' :: ' ' :: joinCSChars (y :: rest2) from rfl]
      rw [splitCSChars_boundary x _ (h x (by simp)).2]
      rw [ih (by simp) (fun z hz => h z (by simp [hz]))]

theorem joinCSChars_ne_nil {d : List Char} {ds : List (List Char)}
    (h : d ≠ []) : joinCSChars (d :: ds) ≠ [] := by
  cases ds with
  | nil => exact h
  | cons e ds2 =>
    show d ++ [',', ' '] ++ joinCSChars (e :: ds2) ≠ []
    simp [h]

theorem splitVideos_joinCS (vs : List String)
    (h : ∀ v ∈ vs, v.data ≠ [] ∧ hasSep v.data = false) :
    splitVideos (joinCS vs) = vs := by
  cases vs with
  | nil => decide
  | cons v rest =>
    have hne : joinCS (v :: rest) ≠ "" := by
      intro he
      have : (joinCS (v :: rest)).data = [] := by rw [he]
      exact joinCSChars_ne_nil (h v (by simp)).1 (by
        simpa [joinCS] using this)
    unfold splitVideos
    rw [if_neg hne]
    have hdata : (joinCS (v :: rest)).data =
        joinCSChars ((v :: rest).map String.data) := rfl
    rw [hdata, joinsplit _ (by simp) (by
      intro x hx
      obtain ⟨w, hw, rfl⟩ := List.mem_map.mp hx
      exact h w hw)]
    rw [List.map_map]
    have : (fun l => (⟨l⟩ : String)) ∘ String.data = id := by
      funext s
      cases s
      rfl
    rw [this, List.map_id]

/- ### Claim C4: counting ids per clip -/

/-- The distinct character ids appearing on a clip (appearance order);
appearance-pair uniqueness makes this duplicate-free. -/
def charsOn (st : CharacterManager) (v : String) : List String :=
  (st.appearances.filter fun a => a.video_name == v).map
    fun a => a.character_id

theorem sum_map_add_nat {α : Type} (l : List α) (f g : α → Nat) :
    (l.map fun x => f x + g x).sum = (l.map f).sum + (l.map g).sum := by
  induction l with
  | nil => rfl
  | cons a as ih =>
    simp only [List.map_cons, List.sum_cons, ih]
    omega

theorem countP_eq_sum_map {α : Type} (l : List α) (p : α → Bool) :
    l.countP p = (l.map fun x => if p x then 1 else 0).sum := by
  induction l with
  | nil => rfl
  | cons a as ih =>
    rw [List.countP_cons, List.map_cons, List.sum_cons, ih]
    omega

theorem beq_comm_str (x y : String) : (x == y) = (y == x) := by
  by_cases h : x = y
  · rw [h]
  · simp [h, Ne.symm h]

theorem length_flatMap_nat {α β : Type} (l : List α) (f : α → List β) :
    (l.flatMap f).length = (l.map fun a => (f a).length).sum := by
  induction l with
  | nil => rfl
  | cons a as ih => simp [List.flatMap_cons, ih]

theorem sum_countP_swap (chars : List Character) (v : String) :
    ∀ apps : List Appearance,
    (∀ a ∈ apps, a.video_name = v →
      chars.countP (fun c => a.character_id == c.id) = 1) →
    (chars.map fun c =>
      apps.countP fun a => a.character_id == c.id && a.video_name == v).sum
      = apps.countP fun a => a.video_name == v := by
  intro apps
  induction apps with
  | nil => intro _; simp
  | cons a as ih =>
    intro h1
    have hstep : ∀ c ∈ chars,
        ((a :: as).countP fun x => x.character_id == c.id && x.video_name == v)
        = (as.countP fun x => x.character_id == c.id && x.video_name == v) +
          (if (a.character_id == c.id && a.video_name == v) then 1 else 0) :=
      fun c _ => by rw [List.countP_cons]
    rw [List.map_congr_left hstep, sum_map_add_nat,
      ih (fun x hx hv => h1 x (by simp [hx]) hv), List.countP_cons]
    congr 1
    by_cases hv : a.video_name = v
    · have hvb : (a.video_name == v) = true := by simp [hv]
      simp only [hvb, Bool.and_true, if_pos]
      rw [← countP_eq_sum_map, h1 a (by simp) hv]
    · have hvb : (a.video_name == v) = false := by simp [hv]
      simp [hvb]

theorem charsOn_length (st : CharacterManager) (v : String) :
    (charsOn st v).length =
      st.appearances.countP fun a => a.video_name == v := by
  unfold charsOn
  rw [List.length_map]
  exact (List.countP_eq_length_filter _ _).symm

theorem charsFor_length_eq (st : CharacterManager) (v : String)
    (hI : (st.characters.map fun c => c.id).Nodup)
    (hC : ∀ a ∈ st.appearances,
      a.character_id ∈ st.characters.map fun c => c.id)
    (hV : ∀ a ∈ st.appearances,
      a.video_name.data ≠ [] ∧ hasSep a.video_name.data = false) :
    (charsFor (generate_table st) v).length = (charsOn st v).length := by
  have hrt : ∀ c : Character,
      splitVideos (joinCS (get_character_videos st c.id)) =
        get_character_videos st c.id := by
    intro c
    apply splitVideos_joinCS
    intro w hw
    unfold get_character_videos at hw
    obtain ⟨a, ha, rfl⟩ := List.mem_map.mp hw
    exact hV a (List.mem_of_mem_filter ha)
  unfold charsFor generate_table
  rw [List.flatMap_map, length_flatMap_nat]
  have hterm : ∀ c ∈ st.characters,
      ((((splitVideos (joinCS (get_character_videos st c.id))).filter
          fun v2 => v2 == v).map fun _ => c.id).length)
      = st.appearances.countP
          fun a => a.character_id == c.id && a.video_name == v := by
    intro c _
    rw [hrt c, List.length_map, ← List.countP_eq_length_filter]
    unfold get_character_videos
    rw [List.countP_map, List.countP_filter]
    have hfl : (fun a : Appearance =>
        ((fun v2 => v2 == v) ∘ fun app => app.video_name) a &&
          (a.character_id == c.id))
        = fun a : Appearance =>
            (a.character_id == c.id) && (a.video_name == v) :=
      funext fun a => Bool.and_comm _ _
    rw [hfl]
  rw [List.map_congr_left hterm]
  rw [sum_countP_swap st.characters v st.appearances ?h1]
  · exact (charsOn_length st v).symm
  case h1 =>
    intro a ha _
    have hcong : (fun c : Character => a.character_id == c.id)
        = (fun c : Character => c.id == a.character_id) :=
      funext fun c => beq_comm_str _ _
    rw [hcong]
    show List.countP ((fun i => i == a.character_id) ∘ fun c => c.id)
      st.characters = 1
    rw [← List.countP_map]
    exact List.count_eq_one_of_mem hI (hC a ha)

theorem dedupFirstAux_mem : ∀ (l seen : List String) (x : String),
    x ∈ dedupFirstAux seen l ↔ (x ∈ l ∧ x ∉ seen) := by
  intro l
  induction l with
  | nil => intro seen x; simp [dedupFirstAux]
  | cons y ys ih =>
    intro seen x
    rw [show dedupFirstAux seen (y :: ys) = if y ∈ seen
      then dedupFirstAux seen ys
      else y :: dedupFirstAux (y :: seen) ys from rfl]
    by_cases hy : y ∈ seen
    · rw [if_pos hy]
      simp only [ih, List.mem_cons]
      constructor
      · rintro ⟨h1, h2⟩
        exact ⟨Or.inr h1, h2⟩
      · rintro ⟨h1 | h1, h2⟩
        · exact absurd (h1 ▸ hy) h2
        · exact ⟨h1, h2⟩
    · rw [if_neg hy]
      simp only [List.mem_cons, ih]
      constructor
      · rintro (rfl | ⟨hm, hn⟩)
        · exact ⟨Or.inl rfl, hy⟩
        · exact ⟨Or.inr hm, fun hs => hn (Or.inr hs)⟩
      · rintro ⟨rfl | hm, hn⟩
        · exact Or.inl rfl
        · by_cases hxy : x = y
          · exact Or.inl hxy
          · refine Or.inr ⟨hm, fun hc => ?_⟩
            rcases hc with h | h
            · exact hxy h
            · exact hn h

theorem mem_videoKeys (rows : List Row) (v : String) :
    v ∈ videoKeys rows ↔ ∃ r ∈ rows, v ∈ splitVideos r.VIDEO := by
  unfold videoKeys
  rw [dedupFirstAux_mem]
  simp [List.mem_flatMap]

theorem renamed_mem (rows : List Row) (dir v : String) :
    (∃ d, (v, d) ∈ renamed_videos rows dir) ↔
      (v ∈ videoKeys rows ∧ ∃ a b, charsFor rows v = [a, b]) := by
  unfold renamed_videos
  constructor
  · rintro ⟨d, hd⟩
    obtain ⟨k, hk, hfk⟩ := List.mem_filterMap.mp hd
    rcases hsh : charsFor rows k with _ | ⟨a, _ | ⟨b, _ | ⟨c, t⟩⟩⟩ <;>
      rw [hsh] at hfk
    · exact absurd hfk (by simp)
    · exact absurd hfk (by simp)
    · injection hfk with hfk2
      have hkv : k = v := congrArg Prod.fst hfk2
      subst hkv
      exact ⟨hk, a, b, hsh⟩
    · exact absurd hfk (by simp)
  · rintro ⟨hk, a, b, hab⟩
    refine ⟨dir ++ "/" ++ pairFilename a b, List.mem_filterMap.mpr ⟨v, hk, ?_⟩⟩
    rw [hab]

/-- C4: a clip receives a pairing-mapping entry iff the set of distinct
character ids appearing on it has size exactly 2; a clip with 3 distinct
ids gets no entry, yet the appearance index still lists the clip for
each of its three ids. Hypotheses: the registry invariants (unique
appearance pairs, distinct ids, appearance ids covered by characters)
and clip names that survive the `", "`-join/split round trip. -/
theorem C4_pairing_iff (st : CharacterManager) (dir : String)
    (hN : st.appearances.Nodup)
    (hI : (st.characters.map fun c => c.id).Nodup)
    (hC : ∀ a ∈ st.appearances,
      a.character_id ∈ st.characters.map fun c => c.id)
    (hV : ∀ a ∈ st.appearances,
      a.video_name.data ≠ [] ∧ hasSep a.video_name.data = false) :
    (∀ v : String,
      (∃ d, (v, d) ∈ renamed_videos (generate_table st) dir) ↔
        (charsOn st v).length = 2) ∧
    (∀ v : String, (charsOn st v).length = 3 →
      (∀ d, (v, d) ∉ renamed_videos (generate_table st) dir) ∧
      (charsOn st v).Nodup ∧
      (∀ cid ∈ charsOn st v, v ∈ get_character_videos st cid)) := by
  have hiff : ∀ v : String,
      (∃ d, (v, d) ∈ renamed_videos (generate_table st) dir) ↔
        (charsOn st v).length = 2 := by
    intro v
    rw [renamed_mem]
    constructor
    · rintro ⟨hk, a, b, hab⟩
      rw [← charsFor_length_eq st v hI hC hV, hab]
      rfl
    · intro h2
      have hlen : (charsFor (generate_table st) v).length = 2 := by
        rw [charsFor_length_eq st v hI hC hV]
        exact h2
      obtain ⟨a, b, hab⟩ := List.length_eq_two.mp hlen
      refine ⟨?_, a, b, hab⟩
      rw [mem_videoKeys]
      have hmem : a ∈ charsFor (generate_table st) v := by rw [hab]; simp
      unfold charsFor at hmem
      obtain ⟨r, hr, hmem2⟩ := List.mem_flatMap.mp hmem
      obtain ⟨w, hw, _⟩ := List.mem_map.mp hmem2
      have hwv : w = v := by simpa using (List.mem_filter.mp hw).2
      exact ⟨r, hr, hwv ▸ List.mem_of_mem_filter hw⟩
  refine ⟨hiff, ?_⟩
  intro v h3
  refine ⟨?_, ?_, ?_⟩
  · intro d hd
    have h2 := (hiff v).mp ⟨d, hd⟩
    rw [h3] at h2
    exact absurd h2 (by decide)
  · unfold charsOn
    refine List.Nodup.map_on ?_ (hN.filter _)
    intro x hx y hy hxy
    have hxv : x.video_name = v := by simpa using (List.mem_filter.mp hx).2
    have hyv : y.video_name = v := by simpa using (List.mem_filter.mp hy).2
    cases x
    cases y
    simp only at hxy hxv hyv
    rw [hxy, hxv, hyv]
  · intro cid hc
    unfold charsOn at hc
    obtain ⟨a, ha, rfl⟩ := List.mem_map.mp hc
    have hav : a.video_name = v := by simpa using (List.mem_filter.mp ha).2
    unfold get_character_videos
    exact List.mem_map.mpr
      ⟨a, List.mem_filter.mpr ⟨List.mem_of_mem_filter ha, by simp⟩, hav⟩

theorem C4_witness :
    ((∀ v : String,
      (∃ d, (v, d) ∈ renamed_videos (generate_table mFoxBear) "d") ↔
        (charsOn mFoxBear v).length = 2) ∧
    (∀ v : String, (charsOn mFoxBear v).length = 3 →
      (∀ d, (v, d) ∉ renamed_videos (generate_table mFoxBear) "d") ∧
      (charsOn mFoxBear v).Nodup ∧
      (∀ cid ∈ charsOn mFoxBear v, v ∈ get_character_videos mFoxBear cid))) :=
  C4_pairing_iff mFoxBear "d" (by decide) (by decide) (by decide) (by decide)

/- ### Persistence of resolution across later operations -/

theorem find?_append_some {α : Type} {p : α → Bool} {l1 l2 : List α} {c : α}
    (h : l1.find? p = some c) : (l1 ++ l2).find? p = some c := by
  induction l1 with
  | nil => exact absurd h (by simp)
  | cons a as ih =>
    cases hp : p a with
    | true =>
      rw [List.find?_cons_of_pos _ hp] at h
      rw [List.cons_append, List.find?_cons_of_pos _ hp]
      exact h
    | false =>
      rw [List.find?_cons_of_neg _ (by simp [hp])] at h
      rw [List.cons_append, List.find?_cons_of_neg _ (by simp [hp])]
      exact ih h

theorem add_character_apps {m : CharacterManager} {name id1 : String}
    {m1 : CharacterManager} (h : add_character m name = .ok (id1, m1)) :
    m1.appearances = m.appearances := by
  rcases add_character_cases h with ⟨rfl, _, _⟩ | ⟨_, _, rfl, _⟩
  · rfl
  · rfl

theorem add_character_hne {m : CharacterManager} {name id1 : String}
    {m1 : CharacterManager} (hne : ∀ c ∈ m.characters, c.id ≠ "")
    (h : add_character m name = .ok (id1, m1)) :
    ∀ c ∈ m1.characters, c.id ≠ "" := by
  rcases add_character_cases h with ⟨rfl, _, _⟩ | ⟨hlen, _, rfl, _⟩
  · exact hne
  · intro c hc
    rcases List.mem_append.mp hc with hc | hc
    · exact hne c hc
    · rw [List.mem_singleton] at hc
      rw [hc]
      exact pad3_ne_empty (by omega)

theorem applyOp_chars_cases {m m' : CharacterManager} {op : RegOp}
    (h : applyOp m op = .ok m') :
    m'.characters = m.characters ∨
    ∃ nm, (find_character_id m nm = none ∨ find_character_id m nm = some "")
      ∧ m.characters.length + 1 ≤ 999
      ∧ m'.characters = (withNewChar m nm).characters := by
  cases op with
  | resolve n =>
    simp only [applyOp] at h
    cases ha : add_character m n with
    | error e => rw [ha] at h; exact absurd h (by simp [Except.map])
    | ok r =>
      obtain ⟨cid, mm⟩ := r
      rw [ha] at h
      simp only [Except.map] at h
      injection h with h'
      subst h'
      rcases add_character_cases ha with ⟨rfl, _, _⟩ | ⟨hlen, _, rfl, hf⟩
      · exact Or.inl rfl
      · exact Or.inr ⟨n, hf, hlen, rfl⟩
  | record n v =>
    obtain ⟨cid, mm, ha, hcase⟩ := add_appearance_cases h
    have hch : m'.characters = mm.characters := by
      rcases hcase with ⟨_, rfl⟩ | ⟨_, rfl⟩ <;> rfl
    rcases add_character_cases ha with ⟨rfl, _, _⟩ | ⟨hlen, _, rfl, hf⟩
    · exact Or.inl hch
    · exact Or.inr ⟨n, hf, hlen, hch⟩

theorem applyOp_hne {m m' : CharacterManager} {op : RegOp}
    (hne : ∀ c ∈ m.characters, c.id ≠ "") (h : applyOp m op = .ok m') :
    ∀ c ∈ m'.characters, c.id ≠ "" := by
  rcases applyOp_chars_cases h with hc | ⟨nm, _, hlen, hc⟩
  · rw [hc]; exact hne
  · rw [hc]
    intro c hcm
    rcases List.mem_append.mp hcm with hcm | hcm
    · exact hne c hcm
    · rw [List.mem_singleton] at hcm
      rw [hcm]
      exact pad3_ne_empty (by omega)

theorem exactMatch_new {n nm : String} {m : CharacterManager}
    (h : exactMatch (normalize_name n)
      { id := pad3 (m.characters.length + 1), canonical_name := nm,
        variations := [normalize_name nm] } = true) :
    normalize_name n = normalize_name nm := by
  simp only [exactMatch, Bool.and_eq_true, beq_iff_eq] at h
  exact h.2

theorem find_persist_op {m m' : CharacterManager} {op : RegOp} {n k : String}
    (hne : ∀ c ∈ m.characters, c.id ≠ "")
    (hf : find_character_id m n = some k) (h : applyOp m op = .ok m') :
    find_character_id m' n = some k := by
  rcases applyOp_chars_cases h with hc | ⟨nm, hcond, hlen, hc⟩
  · rw [find_character_id_chars_congr hc]
    exact hf
  · have hnone : find_character_id m nm = none := by
      rcases hcond with h0 | h0
      · exact h0
      · obtain ⟨c, hcm, hcid⟩ := find_character_id_mem h0
        exact absurd hcid (hne c hcm)
    rw [find_character_id_eq] at hf ⊢
    rw [hc]
    simp only [withNewChar]
    cases he : m.characters.find? (exactMatch (normalize_name n)) with
    | some c =>
      rw [he] at hf
      rw [find?_append_some he]
      exact hf
    | none =>
      rw [he] at hf
      cases hfz : m.characters.find? (fuzzyMatch (normalize_name n)) with
      | none => rw [hfz] at hf; exact absurd hf (by simp)
      | some c =>
        rw [hfz] at hf
        have hexn : (m.characters ++
            [({ id := pad3 (m.characters.length + 1), canonical_name := nm,
                variations := [normalize_name nm] } : Character)]).find?
              (exactMatch (normalize_name n)) = none := by
          rw [find?_append_none he]
          cases hx : exactMatch (normalize_name n)
              ({ id := pad3 (m.characters.length + 1), canonical_name := nm,
                 variations := [normalize_name nm] } : Character) with
          | false => rw [List.find?_cons_of_neg _ (by simp [hx])]; rfl
          | true =>
            have heq := exactMatch_new hx
            rw [heq] at he hfz
            rw [find_character_id_eq, he, hfz] at hnone
            exact absurd hnone (by simp)
        rw [hexn, find?_append_some hfz]
        exact hf

theorem execOps_hne : ∀ (ops : List RegOp) (m m' : CharacterManager),
    (∀ c ∈ m.characters, c.id ≠ "") → execOps m ops = .ok m' →
    ∀ c ∈ m'.characters, c.id ≠ "" := by
  intro ops
  induction ops with
  | nil =>
    intro m m' hne h
    injection h with h'
    exact h' ▸ hne
  | cons op ops ih =>
    intro m m' hne h
    unfold execOps at h
    cases ha : applyOp m op with
    | error e => rw [ha] at h; exact absurd h (by simp)
    | ok mm =>
      rw [ha] at h
      exact ih mm m' (applyOp_hne hne ha) h

theorem execOps_find_persist : ∀ (ops : List RegOp) (m m' : CharacterManager)
    (n k : String), (∀ c ∈ m.characters, c.id ≠ "") →
    find_character_id m n = some k → execOps m ops = .ok m' →
    find_character_id m' n = some k := by
  intro ops
  induction ops with
  | nil =>
    intro m m' n k _ hf h
    injection h with h'
    exact h' ▸ hf
  | cons op ops ih =>
    intro m m' n k hne hf h
    unfold execOps at h
    cases ha : applyOp m op with
    | error e => rw [ha] at h; exact absurd h (by simp)
    | ok mm =>
      rw [ha] at h
      exact ih mm m' n k (applyOp_hne hne ha) (find_persist_op hne hf ha) h

theorem applyOp_apps {m m' : CharacterManager} {op : RegOp}
    (h : applyOp m op = .ok m') :
    ∃ s, m'.appearances = m.appearances ++ s := by
  cases op with
  | resolve n =>
    simp only [applyOp] at h
    cases ha : add_character m n with
    | error e => rw [ha] at h; exact absurd h (by simp [Except.map])
    | ok r =>
      obtain ⟨cid, mm⟩ := r
      rw [ha] at h
      simp only [Except.map] at h
      injection h with h'
      subst h'
      exact ⟨[], by rw [add_character_apps ha, List.append_nil]⟩
  | record n v =>
    obtain ⟨cid, mm, ha, hcase⟩ := add_appearance_cases h
    have hmm := add_character_apps ha
    rcases hcase with ⟨_, rfl⟩ | ⟨_, rfl⟩
    · exact ⟨[], by rw [hmm, List.append_nil]⟩
    · exact ⟨[{ character_id := cid, video_name := v }], by rw [hmm]⟩

theorem execOps_apps : ∀ (ops : List RegOp) (m m' : CharacterManager),
    execOps m ops = .ok m' → ∃ s, m'.appearances = m.appearances ++ s := by
  intro ops
  induction ops with
  | nil =>
    intro m m' h
    injection h with h'
    exact ⟨[], by rw [h', List.append_nil]⟩
  | cons op ops ih =>
    intro m m' h
    unfold execOps at h
    cases ha : applyOp m op with
    | error e => rw [ha] at h; exact absurd h (by simp)
    | ok mm =>
      rw [ha] at h
      obtain ⟨s1, hs1⟩ := applyOp_apps ha
      obtain ⟨s2, hs2⟩ := ih mm m' h
      exact ⟨s1 ++ s2, by rw [hs2, hs1, List.append_assoc]⟩

/-- `record_appearance` stays a no-op for an already-present pair even
after further operations on the registry. -/
theorem add_appearance_idem_later {m m1 m2 : CharacterManager}
    {n v : String} {ops : List RegOp}
    (hne : ∀ c ∈ m.characters, c.id ≠ "")
    (h : add_appearance m n v = .ok m1) (hx : execOps m1 ops = .ok m2) :
    add_appearance m2 n v = .ok m2 := by
  obtain ⟨cid, mm, ha, hcase⟩ := add_appearance_cases h
  have ha2 : add_character mm n = .ok (cid, mm) := add_character_norm_eq hne rfl ha
  obtain ⟨hfind, hcne⟩ := add_character_self ha2
  have hchars : m1.characters = mm.characters := by
    rcases hcase with ⟨_, rfl⟩ | ⟨_, rfl⟩ <;> rfl
  have hfind1 : find_character_id m1 n = some cid := by
    rw [find_character_id_chars_congr hchars]
    exact hfind
  have hne1 : ∀ c ∈ m1.characters, c.id ≠ "" := by
    rw [hchars]
    exact add_character_hne hne ha
  have hfind2 : find_character_id m2 n = some cid :=
    execOps_find_persist ops m1 m2 n cid hne1 hfind1 hx
  have ha3 : add_character m2 n = .ok (cid, m2) := add_character_found hfind2 hcne
  have hp1 : appPresent m1 cid v = true := by
    rcases hcase with ⟨hp, rfl⟩ | ⟨hp, rfl⟩
    · exact hp
    · simp [appPresent]
  obtain ⟨s, hs⟩ := execOps_apps ops m1 m2 hx
  have hp2 : appPresent m2 cid v = true := by
    obtain ⟨a, ham, hap⟩ := List.any_eq_true.mp hp1
    exact List.any_eq_true.mpr ⟨a, by rw [hs]; exact List.mem_append_left _ ham, hap⟩
  exact add_appearance_present ha3 hp2

/- ### Claim C1 -/

/-- C1: on any registry whose characters all carry a non-empty id (true of
every registry the pipeline builds), resolving the same raw name twice —
with any further resolve/record operations in between — returns the same
character id and leaves the registry unchanged the second time; "Fox"
then "fox" (case-only difference) return the same id; and "Wolfbear"
then "Wolf Bear" return the same id. -/
theorem C1_resolve_same_id (m : CharacterManager)
    (hne : ∀ c ∈ m.characters, c.id ≠ "") :
    (∀ n id1 m1 ops m2, add_character m n = .ok (id1, m1) →
       execOps m1 ops = .ok m2 → add_character m2 n = .ok (id1, m2)) ∧
    (∀ id1 m1, add_character m "Fox" = .ok (id1, m1) →
       add_character m1 "fox" = .ok (id1, m1)) ∧
    (∀ id1 m1, add_character m "Wolfbear" = .ok (id1, m1) →
       add_character m1 "Wolf Bear" = .ok (id1, m1)) := by
  refine ⟨?_, fun _ _ h => add_character_norm_eq hne (by decide) h,
    fun _ _ h => add_character_norm_eq hne (by decide) h⟩
  intro n id1 m1 ops m2 h hx
  have h2 : add_character m1 n = .ok (id1, m1) := add_character_norm_eq hne rfl h
  obtain ⟨hfind, hcne⟩ := add_character_self h2
  have hne1 : ∀ c ∈ m1.characters, c.id ≠ "" := add_character_hne hne h
  exact add_character_found
    (execOps_find_persist ops m1 m2 n id1 hne1 hfind hx) hcne

theorem C1_witness : add_character mFox "fox" = .ok ("001", mFox) :=
  (C1_resolve_same_id initManager (by simp [initManager])).2.1 "001" mFox
    (by rfl)

/- ### Claim C8 -/

/-- C8: after every successful sequence of registry operations from a
fresh manager: ids are the dense list `001, 002, ...` in first-seen
order (at most 999, each 3 characters long), ids of existing characters
are never changed by further operations, a normalized name belongs to at
most one character (the normalized canonical names are pairwise
distinct), the (character_id, clip_name) pairs are unique, and
re-adding an existing appearance is a no-op. -/
theorem C8_registry_invariants (ops : List RegOp) (m1 : CharacterManager)
    (h : execOps initManager ops = .ok m1) :
    ((m1.characters.map fun c => c.id) =
       ((List.range m1.characters.length).map fun i => pad3 (i + 1)) ∧
     m1.characters.length ≤ 999 ∧
     (∀ c ∈ m1.characters, (c.id).length = 3) ∧
     (∀ ops2 m2, execOps m1 ops2 = .ok m2 →
        ∃ t, m2.characters = m1.characters ++ t) ∧
     (m1.characters.map fun c => normalize_name c.canonical_name).Nodup) ∧
    (m1.appearances.Nodup ∧
     ∀ n v m2 ops2 m3, add_appearance m1 n v = .ok m2 →
       execOps m2 ops2 = .ok m3 → add_appearance m3 n v = .ok m3) := by
  have hinv := execOps_inv ops initManager m1 RegInv_init h
  refine ⟨⟨hinv.2.1, hinv.1, ?_, ?_, hinv.2.2.2.1⟩, hinv.2.2.2.2.1, ?_⟩
  · intro c hc
    obtain ⟨i, hi, hid⟩ := mem_ids_of_dense hinv c hc
    have hl := hinv.1
    rw [hid]
    exact pad3_length (by omega)
  · intro ops2 m2 h2
    obtain ⟨t, ht, _⟩ := execOps_frame ops2 m1 m2 h2
    exact ⟨t, ht⟩
  · intro n v m2 ops2 m3 h2 h3
    exact add_appearance_idem_later (RegInv_ids_ne hinv) h2 h3

theorem C8_witness :
    ((mFoxBear.characters.map fun c => c.id) =
       ((List.range mFoxBear.characters.length).map fun i => pad3 (i + 1)) ∧
     mFoxBear.characters.length ≤ 999 ∧
     (∀ c ∈ mFoxBear.characters, (c.id).length = 3) ∧
     (∀ ops2 m2, execOps mFoxBear ops2 = .ok m2 →
        ∃ t, m2.characters = mFoxBear.characters ++ t) ∧
     (mFoxBear.characters.map fun c => normalize_name c.canonical_name).Nodup) ∧
    (mFoxBear.appearances.Nodup ∧
     ∀ n v m2 ops2 m3, add_appearance mFoxBear n v = .ok m2 →
       execOps m2 ops2 = .ok m3 → add_appearance m3 n v = .ok m3) :=
  C8_registry_invariants
    [.record "Fox" "a.mp4", .record "Bear" "a.mp4", .resolve "fox"]
    mFoxBear (by rfl)
